import Mathlib

/-!
Verification of the byte-range map (`src/range_map.rs`).

The Rust code stores an ordered list of elements, each covering a half-open
range `[start, stop)` of a fixed address space and carrying one value.  We
embed the data structure and its operations as executable Lean functions:

* `RangeMap.new`            — construction (`RangeMap::new`)
* `RangeMap.find_offset`    — the binary-search locator (`RangeMap::find_offset`);
  the Rust loop is modelled with an explicit fuel argument; `none` models a
  `debug_assert!` failure or an out-of-bounds index panic.
* `RangeMap.iter`           — the read view (`RangeMap::iter`), returning the
  list of yielded values.
* `RangeMap.iter_mut_all`   — full mutable iteration (`RangeMap::iter_mut_all`);
  a caller that writes through every yielded reference is modelled by a
  function applied to every stored value.
* `RangeMap.split_index`    — the boundary split primitive (`RangeMap::split_index`).
* `mutLoop`                 — the combined extent-scan / budgeted-merge loop in
  the body of `RangeMap::iter_mut` (state: list, `equal_since_idx`, `end_idx`,
  `successful_merge_count`).
* `RangeMap.iter_mut_state` — everything `iter_mut` does to the store before
  yielding, together with the (half-open) index window of the yielded slice.
* `RangeMap.mutateWith`     — `iter_mut` followed by a caller that writes
  `f old` through every yielded mutable reference.

Machine integers (`u64`, `usize`) are modelled as `Nat`; all quantities in the
source stay far from overflow in the situations the claims speak about.
-/

namespace RangeMapModel

/-- One element of the map: the covered range `[start, stop)` and its data.
Mirrors `Elem<T> { range: Range<u64>, data: T }`. -/
structure Elem (T : Type) where
  start : Nat
  stop : Nat
  data : T
  deriving Repr, DecidableEq

/-- The range map itself: `RangeMap<T> { v: Vec<Elem<T>> }`. -/
structure RangeMap (T : Type) where
  v : List (Elem T)
  deriving Repr, DecidableEq

variable {T : Type}

/-- `RangeMap::new`: one segment spanning `[0, size)`, or no segment when
`size = 0`. -/
def RangeMap.new (size : Nat) (init : T) : RangeMap T :=
  if 0 < size then ⟨[⟨0, size, init⟩]⟩ else ⟨[]⟩

/-- The binary-search loop of `RangeMap::find_offset`.  `left` is inclusive,
`right` exclusive.  `none` models the `debug_assert!(left < right)` failure
(offset out of bounds) or an out-of-bounds index access.  The Rust `loop` is
driven by a fuel argument; `RangeMap.find_offset` supplies enough fuel for the
interval `right - left` to shrink to nothing. -/
def findOffsetAux (v : List (Elem T)) (offset : Nat) :
    Nat → Nat → Nat → Option Nat
  | _, _, 0 => none
  | left, right, fuel + 1 =>
    if left < right then
      let candidate := (left + right) / 2
      match v[candidate]? with
      | none => none
      | some elem =>
        if offset < elem.start then
          findOffsetAux v offset left candidate fuel
        else if elem.stop ≤ offset then
          findOffsetAux v offset (candidate + 1) right fuel
        else
          some candidate
    else none

/-- `RangeMap::find_offset`: find the index of the element containing
`offset`. -/
def RangeMap.find_offset (m : RangeMap T) (offset : Nat) : Option Nat :=
  findOffsetAux m.v offset 0 m.v.length (m.v.length + 1)

/-- `RangeMap::iter`: the values yielded by read-only iteration over
`[offset, offset+len)`.  A zero-length query never locates an element; the
slice starts at the containing element and is cut by
`take_while (start < offset+len)`. -/
def RangeMap.iter (m : RangeMap T) (offset len : Nat) : Option (List T) :=
  if len = 0 then
    some []
  else
    match m.find_offset offset with
    | none => none
    | some first_idx =>
      some (((m.v.drop first_idx).takeWhile
        (fun e => decide (e.start < offset + len))).map Elem.data)

/-- `RangeMap::iter_mut_all` with a caller writing `f old` through every
yielded mutable reference. -/
def RangeMap.iter_mut_all (m : RangeMap T) (f : T → T) : RangeMap T :=
  ⟨m.v.map fun e => { e with data := f e.data }⟩

/-- `RangeMap::split_index`: split the element at `index` so that the second
half starts at `split_offset`; do nothing when `split_offset` is one of the
element bounds.  `none` models the out-of-bounds index panic and the
`debug_assert!(elem.range.contains(&split_offset))` failure. -/
def RangeMap.split_index (m : RangeMap T) (index : Nat) (split_offset : Nat) :
    Option (RangeMap T × Bool) :=
  match m.v[index]? with
  | none => none
  | some elem =>
    if split_offset = elem.start ∨ split_offset = elem.stop then
      some (m, false)
    else if elem.start ≤ split_offset ∧ split_offset < elem.stop then
      some (⟨m.v.take index ++
        [{ elem with stop := split_offset }, { elem with start := split_offset }] ++
        m.v.drop (index + 1)⟩, true)
    else
      none

/-- The scan-and-merge loop in the body of `RangeMap::iter_mut`.

State: the element list `v`, `equal_since_idx`, `end_idx` and the merge budget
`smc` (`successful_merge_count`).  `tgt` is `offset + len`.  Returns the new
list together with the final (exclusive) `end_idx`.  `none` models a panicking
index access, the `debug_assert!(done || end_idx < self.v.len())` failure, or
fuel exhaustion (the callers supply enough fuel: every iteration decreases
`v.length - end_idx` by exactly one). -/
def mutLoop [DecidableEq T] (tgt : Nat) :
    Nat → List (Elem T) → Nat → Nat → Nat → Option (List (Elem T) × Nat)
  | 0, _, _, _, _ => none
  | fuel + 1, v, equal_since_idx, end_idx, smc =>
    match v[end_idx]? with
    | none => none
    | some e =>
      let done : Bool := decide (tgt ≤ e.stop)
      let e1 := end_idx + 1
      if ¬ done ∧ v.length ≤ e1 then
        none
      else
        let step : Option (List (Elem T) × Nat × Nat × Nat) :=
          if 0 < smc then
            let closes : Option Bool :=
              if done then some true
              else
                match v[e1]?, v[equal_since_idx]? with
                | some nxt, some eq0 => some (decide (nxt.data ≠ eq0.data))
                | _, _ => none
            match closes with
            | none => none
            | some true =>
              let removed := e1 - equal_since_idx - 1
              if 0 < removed then
                match v[equal_since_idx]? with
                | none => none
                | some eq0 =>
                  some (v.take equal_since_idx ++ [{ eq0 with stop := e.stop }] ++ v.drop e1,
                    e1 - removed, e1 - removed, smc + removed)
              else
                some (v, e1, e1, smc - 1)
            | some false => some (v, equal_since_idx, e1, smc)
          else
            some (v, equal_since_idx, e1, smc)
        match step with
        | none => none
        | some (v2, es2, e2, smc2) =>
          if done then some (v2, e2)
          else mutLoop tgt fuel v2 es2 e2 smc2

/-- Everything `RangeMap::iter_mut` does to the store before yielding: the
first boundary split, the scan-and-merge loop (budget 3), and the second
boundary split.  Returns the new store and the half-open index window
`[first_idx, end_idx + 1)` of the yielded slice.  A zero-length query touches
nothing and yields the empty window. -/
def RangeMap.iter_mut_state [DecidableEq T] (m : RangeMap T) (offset len : Nat) :
    Option (RangeMap T × Nat × Nat) :=
  if len = 0 then
    some (m, 0, 0)
  else
    match m.find_offset offset with
    | none => none
    | some i0 =>
      match m.split_index i0 offset with
      | none => none
      | some (m1, didSplit) =>
        let first_idx := if didSplit then i0 + 1 else i0
        match mutLoop (offset + len) (m1.v.length + 1) m1.v first_idx first_idx 3 with
        | none => none
        | some (v2, end_excl) =>
          let end_idx := end_excl - 1
          match RangeMap.split_index ⟨v2⟩ end_idx (offset + len) with
          | none => none
          | some (m3, _) =>
            some (m3, first_idx, end_idx + 1)

/-- Apply `f` to the data of the elements with index in `[lo, hi)`. -/
def mapWindow (f : T → T) (v : List (Elem T)) (lo hi : Nat) : List (Elem T) :=
  v.take lo ++ (((v.drop lo).take (hi - lo)).map fun e => { e with data := f e.data })
    ++ v.drop hi

/-- `RangeMap::iter_mut` followed by a caller that writes `f old` through
every yielded mutable reference. -/
def RangeMap.mutateWith [DecidableEq T] (m : RangeMap T) (offset len : Nat)
    (f : T → T) : Option (RangeMap T) :=
  (m.iter_mut_state offset len).map fun r => ⟨mapWindow f r.1.v r.2.1 r.2.2⟩

/-- The value stored for byte `o`: the data of the first element whose range
contains `o`. -/
def covVal : List (Elem T) → Nat → Option T
  | [], _ => none
  | e :: rest, o =>
    if e.start ≤ o ∧ o < e.stop then some e.data else covVal rest o

/-- The value the map associates with byte `o`. -/
def RangeMap.byteVal (m : RangeMap T) (o : Nat) : Option T :=
  covVal m.v o

/-- A plain extent scan with no merging: advance until the element whose stop
reaches `tgt`, returning the exclusive end index.  Same `none` conditions as
`mutLoop`. -/
def extentScan (tgt : Nat) : Nat → List (Elem T) → Nat → Option Nat
  | 0, _, _ => none
  | fuel + 1, v, end_idx =>
    match v[end_idx]? with
    | none => none
    | some e =>
      let done : Bool := decide (tgt ≤ e.stop)
      let e1 := end_idx + 1
      if ¬ done ∧ v.length ≤ e1 then none
      else if done then some e1
      else extentScan tgt fuel v e1

/-- The tiling invariant: the elements of `v` tile `[lo, hi)` exactly — each
element is non-empty, starts where its predecessor stopped (the first at
`lo`), and the last stops at `hi`. -/
def chain : Nat → List (Elem T) → Nat → Prop
  | lo, [], hi => lo = hi
  | lo, e :: rest, hi => e.start = lo ∧ lo < e.stop ∧ chain e.stop rest hi

instance chainDecidable (lo : Nat) (v : List (Elem T)) (hi : Nat) :
    Decidable (chain lo v hi) :=
  match v with
  | [] => decidable_of_iff (lo = hi) (by simp [chain])
  | e :: rest =>
    have : Decidable (chain e.stop rest hi) := chainDecidable e.stop rest hi
    decidable_of_iff (e.start = lo ∧ lo < e.stop ∧ chain e.stop rest hi)
      (by simp [chain])

/-- The map invariant for a map of the given total size. -/
def RangeMap.Inv (m : RangeMap T) (size : Nat) : Prop :=
  chain 0 m.v size

/-- A public call against the map. -/
inductive Call (T : Type) where
  | read (offset len : Nat)
  | mutate (offset len : Nat) (f : T → T)
  | mutateAll (f : T → T)

/-- Bounds validity of a call against a map of the given size. -/
def Call.valid (size : Nat) : Call T → Prop
  | .read offset len => offset + len ≤ size
  | .mutate offset len _ => offset + len ≤ size
  | .mutateAll _ => True

/-- Execute one call.  The read view never alters the store. -/
def exec [DecidableEq T] (m : RangeMap T) : Call T → Option (RangeMap T)
  | .read _ _ => some m
  | .mutate offset len f => m.mutateWith offset len f
  | .mutateAll f => some (m.iter_mut_all f)

/-- Execute a sequence of calls. -/
def execAll [DecidableEq T] (m : RangeMap T) : List (Call T) → Option (RangeMap T)
  | [] => some m
  | c :: cs =>
    match exec m c with
    | none => none
    | some m2 => execAll m2 cs

/-- Run a sequence of mutate calls `(offset, len, f)`. -/
def runMutates [DecidableEq T] (m : RangeMap T) :
    List (Nat × Nat × (T → T)) → Option (RangeMap T)
  | [] => some m
  | c :: cs =>
    match m.mutateWith c.1 c.2.1 c.2.2 with
    | none => none
    | some m2 => runMutates m2 cs

/-- The specification-level value of byte `o` after a sequence of mutate
calls: each call whose window covers `o` rewrites the value through its
function. -/
def specByte (init : T) (o : Nat) (calls : List (Nat × Nat × (T → T))) : T :=
  calls.foldl (fun acc c => if c.1 ≤ o ∧ o < c.1 + c.2.1 then c.2.2 acc else acc) init

/-- The reference store normalization described by the specification text:
Phase A locates and splits the boundary segment at `offset` and then the one
containing the far boundary `offset + len` (the segment holding the last
byte `offset + len - 1`, split only if the boundary falls strictly inside
it), and only then Phase B runs the budgeted merge scan; no further split
happens after the scan. -/
def RangeMap.refIterMutState [DecidableEq T] (m : RangeMap T) (offset len : Nat) :
    Option (RangeMap T × Nat × Nat) :=
  if len = 0 then
    some (m, 0, 0)
  else
    match m.find_offset offset with
    | none => none
    | some i0 =>
      match m.split_index i0 offset with
      | none => none
      | some (m1, didSplit) =>
        let first_idx := if didSplit then i0 + 1 else i0
        match m1.find_offset (offset + len - 1) with
        | none => none
        | some j =>
          match m1.split_index j (offset + len) with
          | none => none
          | some (m2, _) =>
            match mutLoop (offset + len) (m2.v.length + 1) m2.v first_idx
                first_idx 3 with
            | none => none
            | some (v2, end_excl) =>
              some (⟨v2⟩, first_idx, end_excl)

end RangeMapModel

namespace RangeMapModel

variable {T : Type}

/-! ### Basic facts about `chain` -/

theorem chain_nil {lo hi : Nat} : chain lo ([] : List (Elem T)) hi ↔ lo = hi := by
  simp [chain]

theorem chain_cons {lo hi : Nat} {e : Elem T} {v : List (Elem T)} :
    chain lo (e :: v) hi ↔ e.start = lo ∧ lo < e.stop ∧ chain e.stop v hi := by
  simp [chain]

theorem chain_le {lo hi : Nat} : {v : List (Elem T)} → chain lo v hi → lo ≤ hi := by
  intro v
  induction v generalizing lo with
  | nil => intro h; simp [chain] at h; omega
  | cons e rest ih =>
    intro h
    rw [chain_cons] at h
    have := ih h.2.2
    omega

theorem chain_append {lo hi : Nat} {xs ys : List (Elem T)} :
    chain lo (xs ++ ys) hi ↔ ∃ mid, chain lo xs mid ∧ chain mid ys hi := by
  induction xs generalizing lo with
  | nil =>
    simp [chain]
  | cons e rest ih =>
    simp only [List.cons_append, chain_cons, ih]
    constructor
    · rintro ⟨h1, h2, mid, h3, h4⟩
      exact ⟨mid, ⟨h1, h2, h3⟩, h4⟩
    · rintro ⟨mid, ⟨h1, h2, h3⟩, h4⟩
      exact ⟨h1, h2, mid, h3, h4⟩

theorem chain_getElem {lo hi : Nat} : {v : List (Elem T)} → chain lo v hi →
    ∀ i (h : i < v.length), lo ≤ v[i].start ∧ v[i].start < v[i].stop ∧ v[i].stop ≤ hi := by
  intro v
  induction v generalizing lo with
  | nil => intro _ i h; simp at h
  | cons e rest ih =>
    intro hc i h
    rw [chain_cons] at hc
    match i with
    | 0 =>
      simp only [List.getElem_cons_zero]
      have := chain_le hc.2.2
      omega
    | i + 1 =>
      simp only [List.getElem_cons_succ]
      have := ih hc.2.2 i (by simpa using h)
      omega

theorem chain_stop_eq_start {lo hi : Nat} : {v : List (Elem T)} → chain lo v hi →
    ∀ i (h : i + 1 < v.length), v[i].stop = v[i + 1].start := by
  intro v
  induction v generalizing lo with
  | nil => intro _ i h; simp at h
  | cons e rest ih =>
    intro hc i h
    rw [chain_cons] at hc
    match i with
    | 0 =>
      simp only [List.getElem_cons_zero, List.getElem_cons_succ]
      match rest, hc.2.2, h with
      | f :: rest2, hc2, _ =>
        rw [chain_cons] at hc2
        simp [hc2.1]
    | i + 1 =>
      simp only [List.getElem_cons_succ]
      exact ih hc.2.2 i (by simpa using h)

theorem chain_take_drop {lo hi : Nat} : {v : List (Elem T)} → chain lo v hi →
    ∀ i (h : i < v.length),
      chain lo (v.take i) v[i].start ∧ chain v[i].start (v.drop i) hi := by
  intro v
  induction v generalizing lo with
  | nil => intro _ i h; simp at h
  | cons e rest ih =>
    intro hc i h
    rw [chain_cons] at hc
    match i with
    | 0 =>
      simp only [List.getElem_cons_zero, List.take_zero, List.drop_zero]
      refine ⟨by simp [chain, hc.1], ?_⟩
      rw [chain_cons]
      exact ⟨rfl, by rw [hc.1]; exact hc.2.1, hc.2.2⟩
    | i + 1 =>
      simp only [List.getElem_cons_succ, List.take_succ_cons, List.drop_succ_cons]
      have := ih hc.2.2 i (by simpa using h)
      refine ⟨?_, this.2⟩
      rw [chain_cons]
      exact ⟨hc.1, hc.2.1, this.1⟩

theorem chain_drop_succ {lo hi : Nat} {v : List (Elem T)} (hc : chain lo v hi)
    {i : Nat} (h : i < v.length) : chain v[i].stop (v.drop (i + 1)) hi := by
  have h2 := (chain_take_drop hc i h).2
  have hd : v.drop i = v[i] :: v.drop (i + 1) := List.drop_eq_getElem_cons h
  rw [hd, chain_cons] at h2
  exact h2.2.2

theorem chain_take_succ {lo hi : Nat} {v : List (Elem T)} (hc : chain lo v hi)
    {i : Nat} (h : i < v.length) : chain lo (v.take (i + 1)) v[i].stop := by
  have h1 := (chain_take_drop hc i h).1
  have h2 := (chain_take_drop hc i h).2
  have hd : v.drop i = v[i] :: v.drop (i + 1) := List.drop_eq_getElem_cons h
  rw [hd, chain_cons] at h2
  have ht : v.take (i + 1) = v.take i ++ [v[i]] := by
    rw [List.take_succ]
    simp [List.getElem?_eq_getElem h]
  rw [ht, chain_append]
  refine ⟨v[i].start, h1, ?_⟩
  rw [chain_cons]
  exact ⟨rfl, h2.2.1, by simp [chain]⟩

theorem chain_last {lo hi : Nat} {v : List (Elem T)} (hc : chain lo v hi)
    (h : 0 < v.length) : v[v.length - 1].stop = hi := by
  have h1 : v.length - 1 < v.length := by omega
  have h2 := chain_drop_succ hc h1
  have : v.drop (v.length - 1 + 1) = [] := by
    apply List.drop_eq_nil_of_le; omega
  rw [this] at h2
  simpa [chain] using h2

theorem chain_stop_le_start {lo hi : Nat} {v : List (Elem T)} (hc : chain lo v hi)
    {i j : Nat} (hij : i < j) (hj : j < v.length) (hiv : i < v.length) :
    v[i].stop ≤ v[j].start := by
  have h2 := chain_drop_succ hc hiv
  have hjd : j - (i + 1) < (v.drop (i + 1)).length := by
    simp [List.length_drop]; omega
  have h3 := (chain_getElem h2 (j - (i + 1)) hjd).1
  have h4 : (v.drop (i + 1))[j - (i + 1)] = v[j] := by
    rw [List.getElem_drop]
    congr 1
    omega
  rw [h4] at h3
  exact h3

theorem chain_start_mono {lo hi : Nat} {v : List (Elem T)} (hc : chain lo v hi)
    {i j : Nat} (hij : i ≤ j) (hj : j < v.length) (hiv : i < v.length) :
    v[i].start ≤ v[j].start := by
  rcases Nat.eq_or_lt_of_le hij with h | h
  · subst h; rfl
  · have h1 := chain_stop_le_start hc h hj hiv
    have h2 := (chain_getElem hc i hiv).2.1
    omega

theorem chain_contains_unique {lo hi : Nat} {v : List (Elem T)} (hc : chain lo v hi)
    {i j o : Nat} (hi : i < v.length) (hj : j < v.length)
    (h1 : v[i].start ≤ o) (h2 : o < v[i].stop)
    (h3 : v[j].start ≤ o) (h4 : o < v[j].stop) : i = j := by
  by_contra hne
  rcases Nat.lt_or_ge i j with h | h
  · have := chain_stop_le_start hc h hj (by omega)
    omega
  · have hlt : j < i := by omega
    have := chain_stop_le_start hc hlt hi (by omega)
    omega

theorem chain_exists_contains {lo hi : Nat} : {v : List (Elem T)} → chain lo v hi →
    ∀ {o : Nat}, lo ≤ o → o < hi →
    ∃ i, ∃ (h : i < v.length), v[i].start ≤ o ∧ o < v[i].stop := by
  intro v
  induction v generalizing lo with
  | nil =>
    intro hch o h1 h2
    rw [chain_nil] at hch
    omega
  | cons e rest ih =>
    intro hch o h1 h2
    rw [chain_cons] at hch
    by_cases hcase : o < e.stop
    · refine ⟨0, by simp, ?_, ?_⟩
      · simpa [hch.1] using h1
      · simpa using hcase
    · obtain ⟨i, hlen, ha, hb⟩ := ih hch.2.2 (Nat.le_of_not_lt hcase) h2
      exact ⟨i + 1, by simpa using hlen, by simpa using ha, by simpa using hb⟩

theorem chain_size_zero {v : List (Elem T)} (hc : chain 0 v 0) : v = [] := by
  match v, hc with
  | [], _ => rfl
  | e :: rest, hc =>
    rw [chain_cons] at hc
    have := chain_le hc.2.2
    omega

/-! ### Facts about `covVal` -/

theorem covVal_cons {e : Elem T} {v : List (Elem T)} {o : Nat} :
    covVal (e :: v) o =
      if e.start ≤ o ∧ o < e.stop then some e.data else covVal v o := rfl

theorem covVal_append_of_some {xs ys : List (Elem T)} {o : Nat} {t : T}
    (h : covVal xs o = some t) : covVal (xs ++ ys) o = some t := by
  induction xs with
  | nil => simp [covVal] at h
  | cons e rest ih =>
    rw [covVal_cons] at h
    rw [List.cons_append, covVal_cons]
    by_cases hc : e.start ≤ o ∧ o < e.stop
    · rw [if_pos hc] at h ⊢; exact h
    · rw [if_neg hc] at h ⊢; exact ih h

theorem covVal_append_of_none {xs ys : List (Elem T)} {o : Nat}
    (h : covVal xs o = none) : covVal (xs ++ ys) o = covVal ys o := by
  induction xs with
  | nil => simp
  | cons e rest ih =>
    rw [covVal_cons] at h
    rw [List.cons_append, covVal_cons]
    by_cases hc : e.start ≤ o ∧ o < e.stop
    · rw [if_pos hc] at h; simp at h
    · rw [if_neg hc] at h ⊢; exact ih h

theorem covVal_of_chain_out {lo hi : Nat} : {v : List (Elem T)} → chain lo v hi →
    ∀ {o : Nat}, (o < lo ∨ hi ≤ o) → covVal v o = none := by
  intro v
  induction v generalizing lo with
  | nil => intro _ _ _; rfl
  | cons e rest ih =>
    intro hch o hout
    rw [chain_cons] at hch
    have hstop := chain_le hch.2.2
    rw [covVal_cons, if_neg]
    · exact ih hch.2.2 (by omega)
    · omega

theorem covVal_of_chain_in {lo hi : Nat} : {v : List (Elem T)} → chain lo v hi →
    ∀ {i o : Nat} (h : i < v.length), v[i].start ≤ o → o < v[i].stop →
      covVal v o = some v[i].data := by
  intro v
  induction v generalizing lo with
  | nil => intro _ i _ h; simp at h
  | cons e rest ih =>
    intro hch i o hlen h1 h2
    rw [chain_cons] at hch
    match i with
    | 0 =>
      simp only [List.getElem_cons_zero] at h1 h2 ⊢
      rw [covVal_cons, if_pos ⟨h1, h2⟩]
    | i + 1 =>
      simp only [List.getElem_cons_succ] at h1 h2 ⊢
      have hge := (chain_getElem hch.2.2 i (by simpa using hlen)).1
      rw [covVal_cons, if_neg (by omega)]
      exact ih hch.2.2 (by simpa using hlen) h1 h2

theorem covVal_const_run {lo hi : Nat} {d : T} : {v : List (Elem T)} →
    chain lo v hi → (∀ e ∈ v, e.data = d) →
    ∀ o, covVal v o = if lo ≤ o ∧ o < hi then some d else none := by
  intro v
  induction v generalizing lo with
  | nil =>
    intro hch _ o
    rw [chain_nil] at hch
    subst hch
    rw [if_neg (by omega)]
    rfl
  | cons e rest ih =>
    intro hch hd o
    rw [chain_cons] at hch
    obtain ⟨hes, hlt, hch2⟩ := hch
    rw [covVal_cons, ih hch2 (fun x hx => hd x (List.mem_cons_of_mem _ hx)) o]
    have he : e.data = d := hd e (List.mem_cons_self _ _)
    have hstop := chain_le hch2
    by_cases h1 : e.start ≤ o ∧ o < e.stop
    · rw [if_pos h1, if_pos (by omega), he]
    · rw [if_neg h1]
      by_cases h2 : lo ≤ o ∧ o < hi
      · rw [if_pos h2, if_pos (by omega)]
      · rw [if_neg h2, if_neg (by omega)]

theorem covVal_map_data {f : T → T} : {v : List (Elem T)} → ∀ {o : Nat},
    covVal (v.map fun e => { e with data := f e.data }) o = (covVal v o).map f := by
  intro v
  induction v with
  | nil => intro o; rfl
  | cons e rest ih =>
    intro o
    simp only [List.map_cons, covVal_cons]
    split
    · rfl
    · exact ih

theorem chain_congr_ranges {lo hi : Nat} : {v w : List (Elem T)} →
    v.map (fun e => (e.start, e.stop)) = w.map (fun e => (e.start, e.stop)) →
    chain lo v hi → chain lo w hi := by
  intro v
  induction v generalizing lo with
  | nil =>
    intro w h hc
    match w with
    | [] => exact hc
    | x :: _ => simp at h
  | cons e rest ih =>
    intro w h hc
    match w with
    | [] => simp at h
    | x :: wrest =>
      simp only [List.map_cons, List.cons.injEq, Prod.mk.injEq] at h
      rw [chain_cons] at hc ⊢
      rw [← h.1.1, ← h.1.2]
      exact ⟨hc.1, hc.2.1, ih h.2 hc.2.2⟩

end RangeMapModel

namespace RangeMapModel

variable {T : Type}

/-! ### The locator: `find_offset` -/

theorem findOffsetAux_eq_some {size : Nat} {v : List (Elem T)} (hc : chain 0 v size)
    {o i : Nat} (hi : i < v.length) (h1 : v[i].start ≤ o) (h2 : o < v[i].stop) :
    ∀ fuel left right, left ≤ i → i < right → right ≤ v.length →
      right - left ≤ fuel → findOffsetAux v o left right fuel = some i := by
  intro fuel
  induction fuel with
  | zero => intro l r h3 h4 h5 h6; omega
  | succ fuel ih =>
    intro l r h3 h4 h5 h6
    have hlr : l < r := by omega
    have hcand : (l + r) / 2 < r := by omega
    have hcandlen : (l + r) / 2 < v.length := by omega
    simp only [findOffsetAux, if_pos hlr]
    rw [List.getElem?_eq_getElem hcandlen]
    simp only
    by_cases hA : o < v[(l + r) / 2].start
    · rw [if_pos hA]
      have hic : i < (l + r) / 2 := by
        by_contra hcon
        have := chain_start_mono hc (Nat.le_of_not_lt hcon) hi (by omega)
        omega
      exact ih l ((l + r) / 2) h3 hic (by omega) (by omega)
    · rw [if_neg hA]
      by_cases hB : v[(l + r) / 2].stop ≤ o
      · rw [if_pos hB]
        have hci : (l + r) / 2 < i := by
          by_contra hcon
          rcases Nat.lt_or_ge i ((l + r) / 2) with hlt | hge
          · have := chain_stop_le_start hc hlt hcandlen (by omega)
            have := (chain_getElem hc ((l + r) / 2) hcandlen).2.1
            omega
          · have : i = (l + r) / 2 := by omega
            subst this
            omega
        exact ih ((l + r) / 2 + 1) r hci h4 h5 (by omega)
      · rw [if_neg hB]
        have heq : (l + r) / 2 = i := by
          exact chain_contains_unique hc hcandlen hi (by omega) (by omega) h1 h2
        rw [heq]

theorem find_offset_eq_some {size : Nat} {m : RangeMap T} (hc : chain 0 m.v size)
    {o i : Nat} (hi : i < m.v.length) (h1 : m.v[i].start ≤ o) (h2 : o < m.v[i].stop) :
    m.find_offset o = some i := by
  exact findOffsetAux_eq_some hc hi h1 h2 (m.v.length + 1) 0 m.v.length
    (by omega) hi (by omega) (by omega)

theorem find_offset_contains {size : Nat} {m : RangeMap T} (hc : chain 0 m.v size)
    {o : Nat} (ho : o < size) :
    ∃ i, ∃ (h : i < m.v.length),
      m.v[i].start ≤ o ∧ o < m.v[i].stop ∧ m.find_offset o = some i := by
  obtain ⟨i, h, ha, hb⟩ := chain_exists_contains hc (Nat.zero_le o) ho
  exact ⟨i, h, ha, hb, find_offset_eq_some hc h ha hb⟩

theorem findOffsetAux_eq_none {v : List (Elem T)} {o : Nat}
    (hall : ∀ j (h : j < v.length), v[j].stop ≤ o) :
    ∀ fuel left right, findOffsetAux v o left right fuel = none := by
  intro fuel
  induction fuel with
  | zero => intro l r; rfl
  | succ fuel ih =>
    intro l r
    by_cases hlr : l < r
    · simp only [findOffsetAux, if_pos hlr]
      cases hcand : v[(l + r) / 2]? with
      | none => rfl
      | some e =>
        simp only
        have hlen : (l + r) / 2 < v.length := by
          rw [List.getElem?_eq_some_iff] at hcand
          exact hcand.1
        have he : e = v[(l + r) / 2] := by
          rw [List.getElem?_eq_getElem hlen] at hcand
          exact (Option.some_inj.mp hcand).symm
        have hstop := hall ((l + r) / 2) hlen
        by_cases hA : o < e.start
        · rw [if_pos hA]
          exact ih l ((l + r) / 2)
        · rw [if_neg hA, if_pos (by rw [he]; exact hstop)]
          exact ih ((l + r) / 2 + 1) r
    · simp only [findOffsetAux, if_neg hlr]

theorem find_offset_eq_none {size : Nat} {m : RangeMap T} (hc : chain 0 m.v size)
    {o : Nat} (ho : size ≤ o) : m.find_offset o = none := by
  apply findOffsetAux_eq_none
  intro j h
  have := (chain_getElem hc j h).2.2
  omega

end RangeMapModel

namespace RangeMapModel

variable {T : Type}

/-! ### The split primitive -/

theorem split_index_noop {m : RangeMap T} {i so : Nat} (h : i < m.v.length)
    (hcase : so = m.v[i].start ∨ so = m.v[i].stop) :
    m.split_index i so = some (m, false) := by
  simp only [RangeMap.split_index, List.getElem?_eq_getElem h]
  rw [if_pos hcase]

theorem split_index_split {m : RangeMap T} {i so : Nat} (h : i < m.v.length)
    (h1 : m.v[i].start < so) (h2 : so < m.v[i].stop) :
    m.split_index i so = some (⟨m.v.take i ++
      [{ m.v[i] with stop := so }, { m.v[i] with start := so }] ++
      m.v.drop (i + 1)⟩, true) := by
  simp only [RangeMap.split_index, List.getElem?_eq_getElem h]
  rw [if_neg (by omega), if_pos ⟨by omega, h2⟩]

theorem covVal_congr_middle {A B C D : List (Elem T)}
    (h : ∀ o, covVal B o = covVal C o) (o : Nat) :
    covVal (A ++ (B ++ D)) o = covVal (A ++ (C ++ D)) o := by
  cases hA : covVal A o with
  | some t => rw [covVal_append_of_some hA, covVal_append_of_some hA]
  | none =>
    rw [covVal_append_of_none hA, covVal_append_of_none hA]
    cases hB : covVal B o with
    | some t => rw [covVal_append_of_some hB, covVal_append_of_some ((h o) ▸ hB)]
    | none => rw [covVal_append_of_none hB, covVal_append_of_none ((h o) ▸ hB)]

theorem covVal_split_pieces {e : Elem T} {so : Nat}
    (h1 : e.start < so) (h2 : so < e.stop) (o : Nat) :
    covVal [{ e with stop := so }, { e with start := so }] o = covVal [e] o := by
  simp only [covVal]
  split_ifs <;> first | rfl | omega

theorem eq_take_append_middle {v : List (Elem T)} {i : Nat} (h : i < v.length) :
    v = v.take i ++ ([v[i]] ++ v.drop (i + 1)) := by
  conv_lhs => rw [← List.take_append_drop i v]
  rw [List.drop_eq_getElem_cons h]
  rfl

theorem split_chain {size : Nat} {v : List (Elem T)} (hc : chain 0 v size)
    {i so : Nat} (h : i < v.length) (h1 : v[i].start < so) (h2 : so < v[i].stop) :
    chain 0 (v.take i ++ [{ v[i] with stop := so }, { v[i] with start := so }] ++
      v.drop (i + 1)) size := by
  rw [chain_append]
  refine ⟨v[i].stop, ?_, chain_drop_succ hc h⟩
  rw [chain_append]
  refine ⟨v[i].start, (chain_take_drop hc i h).1, ?_⟩
  simp only [chain]
  refine ⟨by trivial, h1, by trivial, h2, by trivial⟩

theorem split_covVal {v : List (Elem T)} {i so : Nat}
    (h : i < v.length) (h1 : v[i].start < so) (h2 : so < v[i].stop) (o : Nat) :
    covVal (v.take i ++ [{ v[i] with stop := so }, { v[i] with start := so }] ++
      v.drop (i + 1)) o = covVal v o := by
  conv_rhs => rw [eq_take_append_middle h]
  rw [List.append_assoc]
  exact covVal_congr_middle (covVal_split_pieces h1 h2) o

theorem split_length {v : List (Elem T)} {i : Nat} (h : i < v.length)
    (a b : Elem T) :
    (v.take i ++ [a, b] ++ v.drop (i + 1)).length = v.length + 1 := by
  simp
  omega

theorem split_getElem_lt {v : List (Elem T)} {i j : Nat} (h : i < v.length)
    (hj : j < i) (a b : Elem T) :
    ∀ (hc2 : j < (v.take i ++ [a, b] ++ v.drop (i + 1)).length),
      (v.take i ++ [a, b] ++ v.drop (i + 1))[j] = v[j] := by
  intro hc2
  have hj1 : j < (v.take i ++ [a, b]).length := by simp; omega
  rw [List.getElem_append_left hj1]
  have hj2 : j < (v.take i).length := by simp; omega
  rw [List.getElem_append_left hj2]
  apply List.getElem_take

theorem split_getElem_at {v : List (Elem T)} {i : Nat} (h : i < v.length)
    (a b : Elem T) :
    ∀ (hc2 : i < (v.take i ++ [a, b] ++ v.drop (i + 1)).length),
      (v.take i ++ [a, b] ++ v.drop (i + 1))[i] = a := by
  intro hc2
  have hj1 : i < (v.take i ++ [a, b]).length := by simp; omega
  rw [List.getElem_append_left hj1]
  have hlen : (v.take i).length = i := by simp; omega
  have hj2 : (v.take i).length ≤ i := by omega
  rw [List.getElem_append_right hj2]
  simp [hlen]

theorem split_getElem_succ {v : List (Elem T)} {i : Nat} (h : i < v.length)
    (a b : Elem T) :
    ∀ (hc2 : i + 1 < (v.take i ++ [a, b] ++ v.drop (i + 1)).length),
      (v.take i ++ [a, b] ++ v.drop (i + 1))[i + 1] = b := by
  intro hc2
  have hj1 : i + 1 < (v.take i ++ [a, b]).length := by simp; omega
  rw [List.getElem_append_left hj1]
  have hlen : (v.take i).length = i := by simp; omega
  have hj2 : (v.take i).length ≤ i + 1 := by omega
  rw [List.getElem_append_right hj2]
  simp [hlen]

theorem split_getElem_high {v : List (Elem T)} {i j : Nat} (h : i < v.length)
    (hj : i + 1 ≤ j) (hj2 : j < v.length) (a b : Elem T) :
    ∀ (hc2 : j + 1 < (v.take i ++ [a, b] ++ v.drop (i + 1)).length),
      (v.take i ++ [a, b] ++ v.drop (i + 1))[j + 1] = v[j] := by
  intro hc2
  have hlen : (v.take i ++ [a, b]).length = i + 2 := by simp; omega
  have hj1 : (v.take i ++ [a, b]).length ≤ j + 1 := by omega
  rw [List.getElem_append_right hj1]
  have hin : j + 1 - (v.take i ++ [a, b]).length < (v.drop (i + 1)).length := by
    simp at hlen ⊢
    omega
  have hgoal : (v.drop (i + 1))[j + 1 - (v.take i ++ [a, b]).length] = v[j] := by
    rw [List.getElem_drop]
    congr 1
    simp at hlen ⊢
    omega
  exact hgoal

/-! ### The merge surgery performed by the scan loop -/

theorem merge_chain {size : Nat} {v : List (Elem T)} (hc : chain 0 v size)
    {es e : Nat} (hes : es < v.length) (he : e < v.length) (hese : es ≤ e) :
    chain 0 (v.take es ++ [{ v[es] with stop := v[e].stop }] ++ v.drop (e + 1))
      size := by
  rw [chain_append]
  refine ⟨v[e].stop, ?_, chain_drop_succ hc he⟩
  rw [chain_append]
  refine ⟨v[es].start, (chain_take_drop hc es hes).1, ?_⟩
  simp only [chain]
  refine ⟨by trivial, ?_, by trivial⟩
  have h1 := (chain_getElem hc es hes).2.1
  rcases Nat.eq_or_lt_of_le hese with hq | hq
  · subst hq; omega
  · have := chain_stop_le_start hc hq he (by omega)
    have := (chain_getElem hc e he).2.1
    omega

theorem run_decompose {v : List (Elem T)} {es e : Nat}
    (he : e < v.length) (hese : es ≤ e) :
    v = v.take es ++ ((v.drop es).take (e + 1 - es) ++ v.drop (e + 1)) := by
  have h2 : (v.drop es).drop (e + 1 - es) = v.drop (e + 1) := by
    rw [List.drop_drop]
    congr 1
    omega
  rw [← h2, List.take_append_drop, List.take_append_drop]

theorem run_chain {size : Nat} {v : List (Elem T)} (hc : chain 0 v size)
    {es e : Nat} (hes : es < v.length) (he : e < v.length) (hese : es ≤ e) :
    chain v[es].start ((v.drop es).take (e + 1 - es)) v[e].stop := by
  have hdrop : chain v[es].start (v.drop es) size := (chain_take_drop hc es hes).2
  have hsplit : (v.drop es).take (e + 1 - es) ++ (v.drop es).drop (e + 1 - es)
      = v.drop es := List.take_append_drop _ _
  rw [← hsplit, chain_append] at hdrop
  obtain ⟨mid, hA, hB⟩ := hdrop
  have hmid : mid = v[e].stop := by
    have hlenrun : ((v.drop es).take (e + 1 - es)).length = e + 1 - es := by
      simp
      omega
    have hne : 0 < ((v.drop es).take (e + 1 - es)).length := by omega
    have hlast := chain_last hA hne
    have hidx : ((v.drop es).take (e + 1 - es)).length - 1 = e - es := by omega
    have hbd : ((v.drop es).take (e + 1 - es)).length - 1 <
        (v.drop es).length := by
      simp
      omega
    have hget : ((v.drop es).take (e + 1 - es))[((v.drop es).take (e + 1 - es)).length - 1]
        = v[e] := by
      have hb1 : ((v.drop es).take (e + 1 - es)).length - 1 < e + 1 - es := by omega
      have hgoal : ((v.drop es).take (e + 1 - es))[((v.drop es).take (e + 1 - es)).length - 1]
          = (v.drop es)[((v.drop es).take (e + 1 - es)).length - 1] := by
        apply List.getElem_take
      rw [hgoal, List.getElem_drop]
      congr 1
      omega
    rw [hget] at hlast
    exact hlast.symm
  rw [hmid] at hA
  exact hA

theorem merge_covVal {size : Nat} {v : List (Elem T)} (hc : chain 0 v size)
    {es e : Nat} (hes : es < v.length) (he : e < v.length) (hese : es ≤ e)
    (hdata : ∀ i (h : i < v.length), es ≤ i → i ≤ e → v[i].data = v[es].data)
    (o : Nat) :
    covVal (v.take es ++ [{ v[es] with stop := v[e].stop }] ++ v.drop (e + 1)) o
      = covVal v o := by
  conv_rhs => rw [run_decompose he hese]
  rw [List.append_assoc]
  apply covVal_congr_middle
  intro o2
  have hrun := run_chain hc hes he hese
  have hrundata : ∀ x ∈ (v.drop es).take (e + 1 - es), x.data = v[es].data := by
    intro x hx
    obtain ⟨j, hj, hjx⟩ := List.mem_iff_getElem.mp hx
    have hj1 : j < e + 1 - es := by simp at hj; omega
    have hj2 : j < (v.drop es).length := by simp at hj ⊢; omega
    have hgt : ((v.drop es).take (e + 1 - es))[j] = (v.drop es)[j] := by
      apply List.getElem_take
    rw [hgt, List.getElem_drop] at hjx
    rw [← hjx]
    exact hdata (es + j) (by omega) (by omega) (by omega)
  rw [covVal_const_run hrun hrundata o2]
  have hone : chain v[es].start [{ v[es] with stop := v[e].stop }] v[e].stop := by
    simp only [chain]
    refine ⟨by trivial, ?_, by trivial⟩
    have h1 := (chain_getElem hc es hes).2.1
    rcases Nat.eq_or_lt_of_le hese with hq | hq
    · subst hq; omega
    · have := chain_stop_le_start hc hq he (by omega)
      have := (chain_getElem hc e he).2.1
      omega
  have honedata : ∀ x ∈ [{ v[es] with stop := v[e].stop }], x.data = v[es].data := by
    intro x hx
    simp at hx
    rw [hx]
  rw [covVal_const_run hone honedata o2]

theorem merge_length {v : List (Elem T)} {es e : Nat}
    (hes : es < v.length) (he : e < v.length) (hese : es ≤ e) (a : Elem T) :
    (v.take es ++ [a] ++ v.drop (e + 1)).length = v.length - (e - es) := by
  simp
  omega

theorem merge_getElem_lt {v : List (Elem T)} {es e j : Nat}
    (hes : es < v.length) (he : e < v.length) (hese : es ≤ e) (hj : j < es)
    (a : Elem T) :
    ∀ (hc2 : j < (v.take es ++ [a] ++ v.drop (e + 1)).length),
      (v.take es ++ [a] ++ v.drop (e + 1))[j] = v[j] := by
  intro hc2
  have hj1 : j < (v.take es ++ [a]).length := by simp; omega
  rw [List.getElem_append_left hj1]
  have hj2 : j < (v.take es).length := by simp; omega
  rw [List.getElem_append_left hj2]
  apply List.getElem_take

theorem merge_getElem_at {v : List (Elem T)} {es e : Nat}
    (hes : es < v.length) (he : e < v.length) (hese : es ≤ e) (a : Elem T) :
    ∀ (hc2 : es < (v.take es ++ [a] ++ v.drop (e + 1)).length),
      (v.take es ++ [a] ++ v.drop (e + 1))[es] = a := by
  intro hc2
  have hj1 : es < (v.take es ++ [a]).length := by simp; omega
  rw [List.getElem_append_left hj1]
  have hlen : (v.take es).length = es := by simp; omega
  have hj2 : (v.take es).length ≤ es := by omega
  rw [List.getElem_append_right hj2]
  simp [hlen]

theorem merge_getElem_high {v : List (Elem T)} {es e j : Nat}
    (hes : es < v.length) (he : e < v.length) (hese : es ≤ e)
    (hj : es + 1 ≤ j) (hj2 : j + (e - es) < v.length) (a : Elem T) :
    ∀ (hc2 : j < (v.take es ++ [a] ++ v.drop (e + 1)).length),
      (v.take es ++ [a] ++ v.drop (e + 1))[j] = v[j + (e - es)] := by
  intro hc2
  have hlen : (v.take es ++ [a]).length = es + 1 := by simp; omega
  have hj1 : (v.take es ++ [a]).length ≤ j := by omega
  rw [List.getElem_append_right hj1]
  have hin : j - (v.take es ++ [a]).length < (v.drop (e + 1)).length := by
    simp at hlen ⊢
    omega
  have hgoal : (v.drop (e + 1))[j - (v.take es ++ [a]).length]
      = v[j + (e - es)] := by
    rw [List.getElem_drop]
    congr 1
    simp at hlen ⊢
    omega
  exact hgoal

theorem merge_take_frame {v : List (Elem T)} {es e first : Nat}
    (hfirst : first ≤ es) (hes : es < v.length) (a : Elem T) :
    (v.take es ++ [a] ++ v.drop (e + 1)).take first = v.take first := by
  rw [List.append_assoc, List.take_append_eq_append_take]
  have hlen : (v.take es).length = es := by simp; omega
  have h0 : first - (v.take es).length = 0 := by omega
  rw [h0]
  simp only [List.take_zero, List.append_nil, List.take_take]
  congr 1
  omega

end RangeMapModel

namespace RangeMapModel

variable {T : Type}

/-! ### One-step characterizations of the scan loop -/

theorem getElem_congr_idx {l : List (Elem T)} {i j : Nat} (hij : i = j)
    (hi : i < l.length) : ∀ (hj : j < l.length), l[i] = l[j] := by
  intro hj
  congr 1

theorem mutLoop_step_oob [DecidableEq T] {tgt fuel : Nat} {v : List (Elem T)}
    {es e smc : Nat} (he : v.length ≤ e) :
    mutLoop tgt (fuel + 1) v es e smc = none := by
  simp only [mutLoop, List.getElem?_eq_none he]

theorem mutLoop_step_assert [DecidableEq T] {tgt fuel : Nat} {v : List (Elem T)}
    {es e smc : Nat} (he : e < v.length) (hnd : ¬ tgt ≤ v[e].stop)
    (hlen : v.length ≤ e + 1) :
    mutLoop tgt (fuel + 1) v es e smc = none := by
  simp only [mutLoop, List.getElem?_eq_getElem he]
  simp [hnd, hlen]

theorem mutLoop_step_done_zero [DecidableEq T] {tgt fuel : Nat} {v : List (Elem T)}
    {es e : Nat} (he : e < v.length) (hdone : tgt ≤ v[e].stop) :
    mutLoop tgt (fuel + 1) v es e 0 = some (v, e + 1) := by
  simp only [mutLoop, List.getElem?_eq_getElem he]
  simp [hdone]

theorem mutLoop_step_done_miss [DecidableEq T] {tgt fuel : Nat} {v : List (Elem T)}
    {es e smc : Nat} (he : e < v.length) (hdone : tgt ≤ v[e].stop)
    (hsm : 0 < smc) (hes : e ≤ es) :
    mutLoop tgt (fuel + 1) v es e smc = some (v, e + 1) := by
  simp only [mutLoop, List.getElem?_eq_getElem he]
  have hrem : e + 1 - es - 1 = 0 := by omega
  simp [hdone, hsm, hrem]

theorem mutLoop_step_done_merge [DecidableEq T] {tgt fuel : Nat} {v : List (Elem T)}
    {es e smc : Nat} (he : e < v.length) (hdone : tgt ≤ v[e].stop)
    (hsm : 0 < smc) (hes : es < e) :
    mutLoop tgt (fuel + 1) v es e smc =
      some (v.take es ++ [{ v[es] with stop := v[e].stop }] ++ v.drop (e + 1),
        es + 1) := by
  have hesl : es < v.length := by omega
  simp only [mutLoop, List.getElem?_eq_getElem he]
  have hrem : 0 < e + 1 - es - 1 := by omega
  have hidx : e + 1 - (e + 1 - es - 1) = es + 1 := by omega
  simp [hdone, hsm, hrem, List.getElem?_eq_getElem hesl, hidx]

theorem mutLoop_step_cont_zero [DecidableEq T] {tgt fuel : Nat} {v : List (Elem T)}
    {es e : Nat} (he : e < v.length) (hnd : ¬ tgt ≤ v[e].stop)
    (hlen : e + 1 < v.length) :
    mutLoop tgt (fuel + 1) v es e 0 = mutLoop tgt fuel v es (e + 1) 0 := by
  simp only [mutLoop, List.getElem?_eq_getElem he]
  simp [hnd, hlen]

theorem mutLoop_step_cont_grow [DecidableEq T] {tgt fuel : Nat} {v : List (Elem T)}
    {es e smc : Nat} (he : e < v.length) (hnd : ¬ tgt ≤ v[e].stop)
    (hlen : e + 1 < v.length) (hes : es < v.length) (hsm : 0 < smc)
    (heq : (v[e + 1]).data = (v[es]).data) :
    mutLoop tgt (fuel + 1) v es e smc = mutLoop tgt fuel v es (e + 1) smc := by
  simp only [mutLoop, List.getElem?_eq_getElem he,
    List.getElem?_eq_getElem hlen, List.getElem?_eq_getElem hes]
  simp [hnd, hsm, heq]
  intro hcon
  omega

theorem mutLoop_step_cont_miss [DecidableEq T] {tgt fuel : Nat} {v : List (Elem T)}
    {es e smc : Nat} (he : e < v.length) (hnd : ¬ tgt ≤ v[e].stop)
    (hlen : e + 1 < v.length) (hes : es < v.length) (hsm : 0 < smc)
    (hne : (v[e + 1]).data ≠ (v[es]).data) (hee : e ≤ es) :
    mutLoop tgt (fuel + 1) v es e smc =
      mutLoop tgt fuel v (e + 1) (e + 1) (smc - 1) := by
  simp only [mutLoop, List.getElem?_eq_getElem he,
    List.getElem?_eq_getElem hlen, List.getElem?_eq_getElem hes]
  have hrem : e + 1 - es - 1 = 0 := by omega
  simp [hnd, hsm, hne, hrem]
  intro hcon
  omega

theorem mutLoop_step_cont_merge [DecidableEq T] {tgt fuel : Nat} {v : List (Elem T)}
    {es e smc : Nat} (he : e < v.length) (hnd : ¬ tgt ≤ v[e].stop)
    (hlen : e + 1 < v.length) (hes : es < v.length) (hsm : 0 < smc)
    (hne : (v[e + 1]).data ≠ (v[es]).data) (hee : es < e) :
    mutLoop tgt (fuel + 1) v es e smc =
      mutLoop tgt fuel
        (v.take es ++ [{ v[es] with stop := v[e].stop }] ++ v.drop (e + 1))
        (es + 1) (es + 1) (smc + (e - es)) := by
  simp only [mutLoop, List.getElem?_eq_getElem he,
    List.getElem?_eq_getElem hlen, List.getElem?_eq_getElem hes]
  have hrem : 0 < e + 1 - es - 1 := by omega
  have hidx : e + 1 - (e + 1 - es - 1) = es + 1 := by omega
  have hsmc : smc + (e + 1 - es - 1) = smc + (e - es) := by omega
  simp [hnd, hsm, hne, hrem, hidx, hsmc]
  intro hcon
  omega

end RangeMapModel

namespace RangeMapModel

variable {T : Type}

/-- Invariant maintained by the scan-and-merge loop of `iter_mut`. -/
structure LoopInv (size offset tgt first : Nat) (v : List (Elem T))
    (es e smc : Nat) : Prop where
  hchain : chain 0 v size
  htgt : tgt ≤ size
  hofftgt : offset < tgt
  hfe : first ≤ es
  hese : es ≤ e
  hev : e < v.length
  hstart : ∀ (h : first < v.length), v[first].start = offset
  hscanned : ∀ i (h : i < v.length), first ≤ i → i < e → v[i].stop < tgt
  hrun : 0 < smc → ∀ i j (hi : i < v.length) (hj : j < v.length),
    es ≤ i → i ≤ e → es ≤ j → j ≤ e → v[i].data = v[j].data
  hdist : ∀ i (hi : i < v.length) (hi1 : i + 1 < v.length),
    first ≤ i → i + 1 ≤ es → v[i].data ≠ (v[i + 1]).data
  hbudget : 3 ≤ smc + (es - first)

/-- Postcondition of the scan-and-merge loop: `v2` is the final list and
`endE` the final exclusive end index. -/
structure LoopPost (size offset tgt first : Nat) (v0 v2 : List (Elem T))
    (endE : Nat) : Prop where
  pchain : chain 0 v2 size
  pbyte : ∀ o, covVal v2 o = covVal v0 o
  plen : v2.length ≤ v0.length
  pfirst_lt : first < endE
  pend_le : endE ≤ v2.length
  pstart : ∀ (h : first < v2.length), v2[first].start = offset
  pscan : ∀ i (h : i < v2.length), first ≤ i → i + 1 < endE → v2[i].stop < tgt
  pstop : ∀ (h : endE - 1 < v2.length), tgt ≤ v2[endE - 1].stop
  pdist : ∀ i (hi : i < v2.length) (hi1 : i + 1 < v2.length),
    first ≤ i → i < first + 3 → i + 1 < endE → v2[i].data ≠ (v2[i + 1]).data
  ptake : v2.take first = v0.take first

theorem LoopPost_lift {size offset tgt first : Nat} {v0 v1 v2 : List (Elem T)}
    {endE : Nat} (hp : LoopPost size offset tgt first v1 v2 endE)
    (hcov : ∀ o, covVal v1 o = covVal v0 o)
    (hlen : v1.length ≤ v0.length)
    (htake : v1.take first = v0.take first) :
    LoopPost size offset tgt first v0 v2 endE :=
  ⟨hp.pchain, fun o => (hp.pbyte o).trans (hcov o), le_trans hp.plen hlen,
    hp.pfirst_lt, hp.pend_le, hp.pstart, hp.pscan, hp.pstop, hp.pdist,
    hp.ptake.trans htake⟩

end RangeMapModel

namespace RangeMapModel

variable {T : Type}

theorem mutLoop_post [DecidableEq T] {size offset tgt first : Nat} :
    ∀ fuel (v : List (Elem T)) (es e smc : Nat),
      LoopInv size offset tgt first v es e smc →
      v.length ≤ e + fuel →
      ∃ v2 endE, mutLoop tgt fuel v es e smc = some (v2, endE) ∧
        LoopPost size offset tgt first v v2 endE := by
  intro fuel
  induction fuel with
  | zero =>
    intro v es e smc hinv hfuel
    have := hinv.hev
    omega
  | succ fuel ih =>
    intro v es e smc hinv hfuel
    obtain ⟨hchain, htgt, hofftgt, hfe, hese, hev, hstart, hscanned, hrun,
      hdist, hbudget⟩ := hinv
    by_cases hdone : tgt ≤ v[e].stop
    · -- the scan stops at this element
      rcases Nat.eq_zero_or_pos smc with hsm | hsm
      · -- budget exhausted: plain stop
        subst hsm
        refine ⟨v, e + 1, mutLoop_step_done_zero hev hdone, ?_⟩
        refine ⟨hchain, fun o => rfl, le_refl _, by omega, by omega, hstart,
          ?_, ?_, ?_, rfl⟩
        · intro i h hfi hie
          exact hscanned i h hfi (by omega)
        · intro h
          exact hdone
        · intro i hi hi1 hfi hi3 hie
          exact hdist i hi hi1 hfi (by omega)
      · rcases Nat.eq_or_lt_of_le hese with heq | hlt
        · -- run of size one: miss, stop
          subst heq
          refine ⟨v, es + 1, mutLoop_step_done_miss hev hdone hsm (by omega), ?_⟩
          refine ⟨hchain, fun o => rfl, le_refl _, by omega, by omega, hstart,
            ?_, ?_, ?_, rfl⟩
          · intro i h hfi hie
            exact hscanned i h hfi (by omega)
          · intro h
            exact hdone
          · intro i hi hi1 hfi hi3 hie
            exact hdist i hi hi1 hfi (by omega)
        · -- final merge of the run, then stop
          have hesl : es < v.length := by omega
          have hdata : ∀ i (h : i < v.length), es ≤ i → i ≤ e →
              v[i].data = v[es].data := by
            intro i h hi1 hi2
            exact hrun hsm i es h hesl hi1 hi2 (le_refl es) (by omega)
          refine ⟨_, es + 1, mutLoop_step_done_merge hev hdone hsm hlt, ?_⟩
          have hmlen : (v.take es ++ [{ v[es] with stop := v[e].stop }] ++
              v.drop (e + 1)).length = v.length - (e - es) :=
            merge_length hesl hev (by omega) _
          refine ⟨merge_chain hchain hesl hev (by omega),
            merge_covVal hchain hesl hev (by omega) hdata,
            by rw [hmlen]; omega, by omega, by rw [hmlen]; omega, ?_, ?_, ?_, ?_,
            merge_take_frame hfe hesl _⟩
          · intro h
            rcases Nat.eq_or_lt_of_le hfe with hq | hq
            · subst hq
              rw [merge_getElem_at hesl hev (by omega)]
              exact hstart (by omega)
            · rw [merge_getElem_lt hesl hev (by omega) hq]
              exact hstart (by omega)
          · intro i h hfi hie
            have hies : i < es := by omega
            rw [merge_getElem_lt hesl hev (by omega) hies]
            exact hscanned i (by omega) hfi (by omega)
          · intro h
            have hb2 : es < (v.take es ++ [{ v[es] with stop := v[e].stop }] ++
                v.drop (e + 1)).length := h
            have hcv := getElem_congr_idx (by omega : es + 1 - 1 = es) h hb2
            rw [hcv, merge_getElem_at hesl hev (by omega)]
            exact hdone
          · intro i hi hi1 hfi hi3 hie
            have hi1es : i + 1 ≤ es := by omega
            rcases Nat.eq_or_lt_of_le hi1es with hq | hq
            · subst hq
              have hies : i < i + 1 := by omega
              rw [merge_getElem_lt hesl hev (by omega) hies,
                merge_getElem_at hesl hev (by omega)]
              exact hdist i (by omega) (by omega) hfi (by omega)
            · have hies : i < es := by omega
              rw [merge_getElem_lt hesl hev (by omega) hies,
                merge_getElem_lt hesl hev (by omega) hq]
              exact hdist i (by omega) (by omega) hfi (by omega)
    · -- the scan continues past this element
      have hstoplt : v[e].stop < tgt := by omega
      have hlen : e + 1 < v.length := by
        by_contra hcon
        have hlastst := chain_last hchain (by omega)
        have hconv : v[v.length - 1] = v[e] := by
          congr 1
          omega
        rw [hconv] at hlastst
        omega
      rcases Nat.eq_zero_or_pos smc with hsm | hsm
      · -- budget exhausted: pure scan step
        subst hsm
        rw [mutLoop_step_cont_zero hev hdone hlen]
        have hinv2 : LoopInv size offset tgt first v es (e + 1) 0 := by
          refine ⟨hchain, htgt, hofftgt, hfe, by omega, hlen, hstart, ?_,
            fun h0 => absurd h0 (lt_irrefl 0), hdist, hbudget⟩
          intro i h hfi hie
          rcases Nat.lt_or_ge i e with hq | hq
          · exact hscanned i h hfi hq
          · have : i = e := by omega
            subst this
            exact hstoplt
        exact ih v es (e + 1) 0 hinv2 (by omega)
      · have hesl : es < v.length := by omega
        by_cases heqd : (v[e + 1]).data = (v[es]).data
        · -- the run grows
          rw [mutLoop_step_cont_grow hev hdone hlen hesl hsm heqd]
          have haux : ∀ i (h : i < v.length), es ≤ i → i ≤ e + 1 →
              v[i].data = v[es].data := by
            intro i h hi1 hi2
            rcases Nat.lt_or_ge i (e + 1) with hq | hq
            · exact hrun hsm i es h hesl hi1 (by omega) (le_refl es) (by omega)
            · have : i = e + 1 := by omega
              subst this
              exact heqd
          have hinv2 : LoopInv size offset tgt first v es (e + 1) smc := by
            refine ⟨hchain, htgt, hofftgt, hfe, by omega, hlen, hstart, ?_,
              ?_, hdist, hbudget⟩
            · intro i h hfi hie
              rcases Nat.lt_or_ge i e with hq | hq
              · exact hscanned i h hfi hq
              · have : i = e := by omega
                subst this
                exact hstoplt
            · intro _ i j hi hj hi1 hi2 hj1 hj2
              rw [haux i hi hi1 hi2, haux j hj hj1 hj2]
          exact ih v es (e + 1) smc hinv2 (by omega)
        · rcases Nat.eq_or_lt_of_le hese with heq | hlt
          · -- miss: close the singleton run
            subst heq
            rw [mutLoop_step_cont_miss hev hdone hlen hesl hsm heqd (by omega)]
            have hinv2 : LoopInv size offset tgt first v (es + 1) (es + 1)
                (smc - 1) := by
              refine ⟨hchain, htgt, hofftgt, by omega, le_refl _, hlen,
                hstart, ?_, ?_, ?_, by omega⟩
              · intro i h hfi hie
                rcases Nat.lt_or_ge i es with hq | hq
                · exact hscanned i h hfi hq
                · have : i = es := by omega
                  subst this
                  exact hstoplt
              · intro _ i j hi hj hi1 hi2 hj1 hj2
                have hie : i = es + 1 := by omega
                have hje : j = es + 1 := by omega
                subst hie hje
                rfl
              · intro i hi hi1 hfi hi1e
                rcases Nat.lt_or_ge (i + 1) (es + 1) with hq | hq
                · exact hdist i hi hi1 hfi (by omega)
                · have : i = es := by omega
                  subst this
                  intro hcon
                  exact heqd hcon.symm
            exact ih v (es + 1) (es + 1) (smc - 1) hinv2 (by omega)
          · -- hit: merge the run, then continue
            have hdata : ∀ i (h : i < v.length), es ≤ i → i ≤ e →
                v[i].data = v[es].data := by
              intro i h hi1 hi2
              exact hrun hsm i es h hesl hi1 hi2 (le_refl es) (by omega)
            rw [mutLoop_step_cont_merge hev hdone hlen hesl hsm heqd hlt]
            have hmlen : (v.take es ++ [{ v[es] with stop := v[e].stop }] ++
                v.drop (e + 1)).length = v.length - (e - es) :=
              merge_length hesl hev (by omega) _
            have hinv2 : LoopInv size offset tgt first
                (v.take es ++ [{ v[es] with stop := v[e].stop }] ++ v.drop (e + 1))
                (es + 1) (es + 1) (smc + (e - es)) := by
              refine ⟨merge_chain hchain hesl hev (by omega), htgt, hofftgt,
                by omega, le_refl _, by rw [hmlen]; omega, ?_, ?_, ?_, ?_,
                by omega⟩
              · intro h
                rcases Nat.eq_or_lt_of_le hfe with hq | hq
                · subst hq
                  rw [merge_getElem_at hesl hev (by omega)]
                  exact hstart (by omega)
                · rw [merge_getElem_lt hesl hev (by omega) hq]
                  exact hstart (by omega)
              · intro i h hfi hie
                rcases Nat.lt_or_ge i es with hq | hq
                · rw [merge_getElem_lt hesl hev (by omega) hq]
                  exact hscanned i (by omega) hfi (by omega)
                · have : i = es := by omega
                  subst this
                  rw [merge_getElem_at hesl hev (by omega)]
                  exact hstoplt
              · intro _ i j hi hj hi1 hi2 hj1 hj2
                have hie : i = es + 1 := by omega
                have hje : j = es + 1 := by omega
                subst hie hje
                rfl
              · intro i hi hi1 hfi hi1e
                rcases Nat.lt_or_ge (i + 1) (es + 1) with hq | hq
                · have hies : i < es := by omega
                  rcases Nat.lt_or_ge (i + 1) es with hq2 | hq2
                  · rw [merge_getElem_lt hesl hev (by omega) hies,
                      merge_getElem_lt hesl hev (by omega) hq2]
                    exact hdist i (by omega) (by omega) hfi (by omega)
                  · have hi1es : i + 1 = es := by omega
                    subst hi1es
                    rw [merge_getElem_lt hesl hev (by omega) hies,
                      merge_getElem_at hesl hev (by omega)]
                    exact hdist i (by omega) (by omega) hfi (by omega)
                · have hies : i = es := by omega
                  subst hies
                  rw [merge_getElem_at hesl hev (by omega)]
                  rw [merge_getElem_high hesl hev (by omega) (by omega) (by omega)]
                  have hconv : v[i + 1 + (e - i)] = v[e + 1] := by
                    congr 1
                    omega
                  rw [hconv]
                  exact fun hcon => heqd hcon.symm
            have hrec := ih _ (es + 1) (es + 1) (smc + (e - es)) hinv2
              (by rw [hmlen]; omega)
            obtain ⟨v2, endE, hout, hpost⟩ := hrec
            refine ⟨v2, endE, hout, LoopPost_lift hpost
              (merge_covVal hchain hesl hev (by omega) hdata)
              (by rw [hmlen]; omega)
              (merge_take_frame hfe hesl _)⟩

end RangeMapModel

namespace RangeMapModel

variable {T : Type}

/-- Facts about the state after a boundary split at `tgt` inside (or at the
stop bound of) element `k`. -/
theorem split_at_stop_post {size : Nat} {v2 : List (Elem T)} (hc : chain 0 v2 size)
    {k tgt : Nat} (hk : k < v2.length)
    (hstart : v2[k].start < tgt) (hstop : tgt ≤ v2[k].stop) :
    ∃ m3 b, RangeMap.split_index ⟨v2⟩ k tgt = some (m3, b) ∧
      chain 0 m3.v size ∧ (∀ o, covVal m3.v o = covVal v2 o) ∧
      m3.v.length ≤ v2.length + 1 ∧ v2.length ≤ m3.v.length ∧
      (∀ j (hj : j < v2.length), j < k → ∀ (hj2 : j < m3.v.length),
        m3.v[j] = v2[j]) ∧
      (∀ (hk2 : k < m3.v.length), (m3.v[k]).start = v2[k].start ∧
        (m3.v[k]).stop = tgt ∧ (m3.v[k]).data = v2[k].data) := by
  rcases Nat.eq_or_lt_of_le hstop with heq | hlt
  · -- the boundary is already an element bound
    refine ⟨⟨v2⟩, false, split_index_noop hk (Or.inr heq), hc,
      fun o => rfl, Nat.le_succ v2.length, le_refl v2.length, ?_, ?_⟩
    · intro j hj hjk hj2
      rfl
    · intro hk2
      exact ⟨rfl, heq.symm, rfl⟩
  · -- a real split
    refine ⟨_, true, split_index_split hk hstart hlt, split_chain hc hk hstart hlt,
      split_covVal hk hstart hlt, ?_, ?_, ?_, ?_⟩
    · rw [split_length hk]
    · rw [split_length hk]
      omega
    · intro j hj hjk hj2
      exact split_getElem_lt hk hjk _ _ hj2
    · intro hk2
      rw [split_getElem_at hk]
      exact ⟨rfl, rfl, rfl⟩

/-- Postcondition of the full store normalization done by `iter_mut`:
`m3` is the new store, the yielded slice is `[first, endI]` (inclusive). -/
structure WindowPost (size offset len : Nat) (m0 m3 : RangeMap T)
    (first endI : Nat) : Prop where
  wchain : chain 0 m3.v size
  wbyte : ∀ o, covVal m3.v o = covVal m0.v o
  wlen : m3.v.length ≤ m0.v.length + 2
  wfe : first ≤ endI
  wel : endI < m3.v.length
  wstart : ∀ (h : first < m3.v.length), m3.v[first].start = offset
  winner : ∀ i (h : i < m3.v.length), first ≤ i → i < endI →
    m3.v[i].stop < offset + len
  wstop : ∀ (h : endI < m3.v.length), m3.v[endI].stop = offset + len
  wdist : ∀ i (hi : i < m3.v.length) (hi1 : i + 1 < m3.v.length),
    first ≤ i → i < first + 3 → i + 1 ≤ endI →
    m3.v[i].data ≠ (m3.v[i + 1]).data

theorem iter_mut_state_post [DecidableEq T] {size : Nat} {m : RangeMap T}
    (hinv : m.Inv size) {offset len : Nat} (hlen : 0 < len)
    (hbound : offset + len ≤ size) :
    ∃ m3 first endI, m.iter_mut_state offset len = some (m3, first, endI + 1) ∧
      WindowPost size offset len m m3 first endI := by
  have hofflt : offset < size := by omega
  obtain ⟨i0, hi0, hs0, hp0, hfind⟩ := find_offset_contains hinv hofflt
  -- the effect of the first boundary split
  have hsplit1 : ∃ m1 ds first, m.split_index i0 offset = some (m1, ds) ∧
      first = (if ds then i0 + 1 else i0) ∧
      chain 0 m1.v size ∧ (∀ o, covVal m1.v o = covVal m.v o) ∧
      m1.v.length ≤ m.v.length + 1 ∧
      ∃ (hf : first < m1.v.length), m1.v[first].start = offset := by
    rcases Nat.eq_or_lt_of_le hs0 with heq | hlt1
    · refine ⟨m, false, i0, split_index_noop hi0 (Or.inl heq.symm), rfl,
        hinv, fun o => rfl, by omega, hi0, heq⟩
    · refine ⟨_, true, i0 + 1, split_index_split hi0 hlt1 hp0, rfl,
        split_chain hinv hi0 hlt1 hp0, split_covVal hi0 hlt1 hp0,
        by rw [split_length hi0], ?_⟩
      refine ⟨by rw [split_length hi0]; omega, ?_⟩
      rw [split_getElem_succ hi0]
  obtain ⟨m1, ds, first, hsplit, hfirst, hch1, hcov1, hlen1, hf, hstart1⟩ := hsplit1
  -- the loop invariant holds initially
  have hinv1 : LoopInv size offset (offset + len) first m1.v first first 3 := by
    refine ⟨hch1, hbound, by omega, le_refl _, le_refl _, hf,
      fun h => hstart1, ?_, ?_, ?_, by omega⟩
    · intro i h hfi hie
      omega
    · intro _ i j hi hj hi1 hi2 hj1 hj2
      have : i = j := by omega
      subst this
      rfl
    · intro i hi hi1 hfi hi1e
      omega
  obtain ⟨v2, endE, hloop, hpost⟩ := mutLoop_post (m1.v.length + 1) m1.v
    first first 3 hinv1 (by omega)
  have hendE1 : first + 1 ≤ endE := hpost.pfirst_lt
  have hendE2 : endE ≤ v2.length := hpost.pend_le
  have hkend : endE - 1 < v2.length := by omega
  -- the stopping element brackets the target boundary
  have hkstart : v2[endE - 1].start < offset + len := by
    rcases Nat.eq_or_lt_of_le hendE1 with hq | hq
    · have hconv : v2[endE - 1] = v2[first] := by
        congr 1 <;> omega
      rw [hconv, hpost.pstart (by omega)]
      omega
    · have hprev : endE - 1 - 1 + 1 < v2.length := by omega
      have hcs := chain_stop_eq_start hpost.pchain (endE - 1 - 1) hprev
      have hsc := hpost.pscan (endE - 1 - 1) (by omega) (by omega) (by omega)
      have hconv : v2[endE - 1 - 1 + 1] = v2[endE - 1] := by
        congr 1 <;> omega
      rw [hconv] at hcs
      omega
  have hkstop : offset + len ≤ v2[endE - 1].stop := hpost.pstop hkend
  obtain ⟨m3, b, hsplit2, hch3, hcov3, hlen3a, hlen3b, hje, hke⟩ :=
    split_at_stop_post hpost.pchain hkend hkstart hkstop
  refine ⟨m3, first, endE - 1, ?_, ?_⟩
  · -- assemble the computation
    simp only [RangeMap.iter_mut_state, if_neg (by omega : ¬ len = 0)]
    rw [hfind]
    simp only
    rw [hsplit]
    simp only
    rw [← hfirst, hloop]
    simp only
    rw [hsplit2]
  · -- assemble the postcondition
    have hfeI : first ≤ endE - 1 := by omega
    refine ⟨hch3, fun o => (hcov3 o).trans ((hpost.pbyte o).trans (hcov1 o)),
      ?_, hfeI, by omega, ?_, ?_, ?_, ?_⟩
    · have := hpost.plen
      omega
    · intro h
      rcases Nat.eq_or_lt_of_le hfeI with hq | hq
      · have hkk := (hke (by omega)).1
        have hconv : m3.v[first] = m3.v[endE - 1] := by
          congr 1 <;> omega
        rw [hconv, hkk]
        have hconv2 : v2[endE - 1] = v2[first] := by
          congr 1 <;> omega
        rw [hconv2]
        exact hpost.pstart (by omega)
      · rw [hje first (by omega) hq h]
        exact hpost.pstart (by omega)
    · intro i h hfi hie
      rw [hje i (by omega) hie h]
      exact hpost.pscan i (by omega) hfi (by omega)
    · intro h
      exact (hke h).2.1
    · intro i hi hi1 hfi hi3 hi1e
      have hdp := hpost.pdist i (by omega) (by omega) hfi hi3 (by omega)
      rcases Nat.eq_or_lt_of_le hi1e with hq | hq
      · have hii : i < endE - 1 := by omega
        rw [hje i (by omega) hii hi]
        have hd2 := (hke (by omega)).2.2
        have hconv : m3.v[i + 1] = m3.v[endE - 1] := by
          congr 1 <;> omega
        rw [hconv, hd2]
        have hconv2 : v2[endE - 1] = v2[i + 1] := by
          congr 1 <;> omega
        rw [hconv2]
        exact hdp
      · rw [hje i (by omega) (by omega) hi, hje (i + 1) (by omega) hq hi1]
        exact hdp

end RangeMapModel

namespace RangeMapModel

variable {T : Type}

/-! ### Applying the caller's writes to the yielded window -/

theorem window_decompose {v : List (Elem T)} {lo hi : Nat}
    (h1 : lo ≤ hi) (h2 : hi ≤ v.length) :
    v = v.take lo ++ ((v.drop lo).take (hi - lo) ++ v.drop hi) := by
  have h3 : (v.drop lo).drop (hi - lo) = v.drop hi := by
    rw [List.drop_drop]
    congr 1
    omega
  rw [← h3, List.take_append_drop, List.take_append_drop]

theorem mapWindow_eq (f : T → T) (v : List (Elem T)) (lo hi : Nat) :
    mapWindow f v lo hi = v.take lo ++
      (((v.drop lo).take (hi - lo)).map fun e => { e with data := f e.data })
      ++ v.drop hi := rfl

theorem mapWindow_length {v : List (Elem T)} {lo hi : Nat} (f : T → T)
    (h1 : lo ≤ hi) (h2 : hi ≤ v.length) :
    (mapWindow f v lo hi).length = v.length := by
  simp [mapWindow]
  omega

theorem mapWindow_chain {size : Nat} {v : List (Elem T)} (hc : chain 0 v size)
    {lo hi : Nat} (h1 : lo ≤ hi) (h2 : hi ≤ v.length) (f : T → T) :
    chain 0 (mapWindow f v lo hi) size := by
  have hdec := window_decompose h1 h2
  rw [hdec] at hc
  rw [mapWindow_eq, List.append_assoc]
  rw [chain_append] at hc ⊢
  obtain ⟨mid, hA, hBC⟩ := hc
  refine ⟨mid, hA, ?_⟩
  rw [chain_append] at hBC ⊢
  obtain ⟨mid2, hB, hC⟩ := hBC
  refine ⟨mid2, ?_, hC⟩
  exact chain_congr_ranges (by rw [List.map_map]; rfl) hB

theorem mutateWith_len_zero [DecidableEq T] (m : RangeMap T) (offset : Nat)
    (f : T → T) : m.mutateWith offset 0 f = some m := by
  simp [RangeMap.mutateWith, RangeMap.iter_mut_state, mapWindow]

theorem mutateWith_post [DecidableEq T] {size : Nat} {m : RangeMap T}
    (hinv : m.Inv size) {offset len : Nat} (hbound : offset + len ≤ size)
    (f : T → T) :
    ∃ m4, m.mutateWith offset len f = some m4 ∧ m4.Inv size ∧
      (∀ o, covVal m4.v o = if offset ≤ o ∧ o < offset + len
        then (covVal m.v o).map f else covVal m.v o) ∧
      m4.v.length ≤ m.v.length + 2 := by
  rcases Nat.eq_zero_or_pos len with hz | hpos
  · subst hz
    refine ⟨m, mutateWith_len_zero m offset f, hinv, ?_, by omega⟩
    intro o
    rw [if_neg (by omega)]
  · obtain ⟨m3, first, endI, hstate, hw⟩ := iter_mut_state_post hinv hpos hbound
    have hfe := hw.wfe
    have hel := hw.wel
    have hstart := hw.wstart (by omega)
    have hstop := hw.wstop hel
    refine ⟨⟨mapWindow f m3.v first (endI + 1)⟩, ?_, ?_, ?_, ?_⟩
    · rw [RangeMap.mutateWith, hstate]
      rfl
    · exact mapWindow_chain hw.wchain (by omega) (by omega) f
    · -- pointwise effect of the caller's writes
      intro o
      have hAchain : chain 0 (m3.v.take first) offset := by
        have := (chain_take_drop hw.wchain first (by omega)).1
        rw [hstart] at this
        exact this
      have hWchain : chain offset ((m3.v.drop first).take (endI + 1 - first))
          (offset + len) := by
        have := run_chain hw.wchain (by omega) hel hfe
        rw [hstart, hstop] at this
        exact this
      have hSchain : chain (offset + len) (m3.v.drop (endI + 1)) size := by
        have := chain_drop_succ hw.wchain hel
        rw [hstop] at this
        exact this
      have hdec2 := @window_decompose T m3.v first (endI + 1)
        (by omega) (by omega)
      have hdec : covVal m3.v o = covVal (m3.v.take first ++
          ((m3.v.drop first).take (endI + 1 - first) ++ m3.v.drop (endI + 1))) o := by
        conv_lhs => rw [hdec2]
      rw [← hw.wbyte o, mapWindow_eq, List.append_assoc, hdec]
      by_cases hA : o < offset
      · -- byte before the window
        obtain ⟨i, hilen, hia, hib⟩ := chain_exists_contains hAchain
          (Nat.zero_le o) hA
        have hsome := covVal_of_chain_in hAchain hilen hia hib
        rw [covVal_append_of_some hsome, covVal_append_of_some hsome,
          if_neg (by omega)]
      · have hAnone : covVal (m3.v.take first) o = none :=
          covVal_of_chain_out hAchain (Or.inr (by omega))
        rw [covVal_append_of_none hAnone, covVal_append_of_none hAnone]
        by_cases hB : o < offset + len
        · -- byte inside the window
          obtain ⟨i, hilen, hia, hib⟩ := chain_exists_contains hWchain
            (by omega) hB
          have hsome := covVal_of_chain_in hWchain hilen hia hib
          have hsome2 : covVal (((m3.v.drop first).take (endI + 1 - first)).map
              fun e => { e with data := f e.data }) o =
              some (f (((m3.v.drop first).take (endI + 1 - first))[i]).data) := by
            rw [covVal_map_data, hsome]
            rfl
          rw [covVal_append_of_some hsome2, covVal_append_of_some hsome,
            if_pos ⟨by omega, hB⟩]
          rfl
        · -- byte after the window
          have hWnone : covVal ((m3.v.drop first).take (endI + 1 - first)) o
              = none := covVal_of_chain_out hWchain (Or.inr (by omega))
          have hWnone2 : covVal (((m3.v.drop first).take (endI + 1 - first)).map
              fun e => { e with data := f e.data }) o = none := by
            rw [covVal_map_data, hWnone]
            rfl
          rw [covVal_append_of_none hWnone2, covVal_append_of_none hWnone,
            if_neg (by omega)]
    · have := hw.wlen
      rw [mapWindow_length f (by omega) (by omega)]
      omega

/-! ### Reading a single byte -/

theorem iter_one {size : Nat} {m : RangeMap T} (hinv : m.Inv size)
    {o : Nat} (ho : o < size) :
    ∃ t, covVal m.v o = some t ∧ m.iter o 1 = some [t] := by
  obtain ⟨i, hi, ha, hb, hfind⟩ := find_offset_contains hinv ho
  refine ⟨m.v[i].data, covVal_of_chain_in hinv hi ha hb, ?_⟩
  rw [RangeMap.iter, if_neg (by omega), hfind]
  simp only
  rw [List.drop_eq_getElem_cons hi, List.takeWhile_cons]
  rw [if_pos (by simpa using (by omega : m.v[i].start < o + 1))]
  have htail : (m.v.drop (i + 1)).takeWhile
      (fun e => decide (e.start < o + 1)) = [] := by
    rcases Nat.lt_or_ge (i + 1) m.v.length with hq | hq
    · rw [List.drop_eq_getElem_cons hq, List.takeWhile_cons]
      have hnext : m.v[i].stop = (m.v[i + 1]).start :=
        chain_stop_eq_start hinv i hq
      rw [if_neg (by simpa using (by omega : ¬ (m.v[i + 1]).start < o + 1))]
    · rw [List.drop_eq_nil_of_le hq]
      rfl
  rw [htail]
  rfl

end RangeMapModel

namespace RangeMapModel

variable {T : Type}

/-! ### Out-of-bounds behaviour -/

/-- When the scan target lies beyond the tiled space, the loop always ends in
a detected failure: no element ever satisfies the stop condition, so the scan
runs off the end of the sequence and the `debug_assert` fires. -/
theorem mutLoop_oob [DecidableEq T] {size tgt : Nat} (hover : size < tgt) :
    ∀ fuel (v : List (Elem T)), chain 0 v size → ∀ es e smc, es ≤ e →
      mutLoop tgt fuel v es e smc = none := by
  intro fuel
  induction fuel with
  | zero => intro v hc es e smc hese; rfl
  | succ fuel ih =>
    intro v hc es e smc hese
    rcases Nat.lt_or_ge e v.length with he | he
    · have hnd : ¬ tgt ≤ v[e].stop := by
        have := (chain_getElem hc e he).2.2
        omega
      rcases Nat.lt_or_ge (e + 1) v.length with hlen | hlen
      · have hesl : es < v.length := by omega
        rcases Nat.eq_zero_or_pos smc with hsm | hsm
        · subst hsm
          rw [mutLoop_step_cont_zero he hnd hlen]
          exact ih v hc es (e + 1) 0 (by omega)
        · by_cases heqd : (v[e + 1]).data = (v[es]).data
          · rw [mutLoop_step_cont_grow he hnd hlen hesl hsm heqd]
            exact ih v hc es (e + 1) smc (by omega)
          · rcases Nat.eq_or_lt_of_le hese with heq | hlt
            · subst heq
              rw [mutLoop_step_cont_miss he hnd hlen hesl hsm heqd (le_refl _)]
              exact ih v hc (es + 1) (es + 1) (smc - 1) (le_refl _)
            · rw [mutLoop_step_cont_merge he hnd hlen hesl hsm heqd hlt]
              exact ih _ (merge_chain hc hesl he (by omega)) (es + 1) (es + 1)
                (smc + (e - es)) (le_refl _)
      · exact mutLoop_step_assert he hnd hlen
    · exact mutLoop_step_oob he

theorem iter_offset_oob {size : Nat} {m : RangeMap T} (hinv : m.Inv size)
    {offset len : Nat} (hl : 0 < len) (ho : size ≤ offset) :
    m.iter offset len = none := by
  rw [RangeMap.iter, if_neg (by omega), find_offset_eq_none hinv ho]

theorem iter_mut_state_offset_oob [DecidableEq T] {size : Nat} {m : RangeMap T}
    (hinv : m.Inv size) {offset len : Nat} (hl : 0 < len) (ho : size ≤ offset) :
    m.iter_mut_state offset len = none := by
  rw [RangeMap.iter_mut_state, if_neg (by omega), find_offset_eq_none hinv ho]

theorem iter_mut_state_end_oob [DecidableEq T] {size : Nat} {m : RangeMap T}
    (hinv : m.Inv size) {offset len : Nat} (ho : offset < size)
    (hover : size < offset + len) :
    m.iter_mut_state offset len = none := by
  have hl : 0 < len := by omega
  obtain ⟨i0, hi0, hs0, hp0, hfind⟩ := find_offset_contains hinv ho
  simp only [RangeMap.iter_mut_state, if_neg (by omega : ¬ len = 0)]
  rw [hfind]
  simp only
  rcases Nat.eq_or_lt_of_le hs0 with heq | hlt1
  · rw [split_index_noop hi0 (Or.inl heq.symm)]
    have hloop := mutLoop_oob hover (m.v.length + 1) m.v hinv i0 i0 3 (le_refl i0)
    simp [hloop]
  · rw [split_index_split hi0 hlt1 hp0]
    have hloop := mutLoop_oob hover
      ((m.v.take i0 ++ [{ m.v[i0] with stop := offset },
        { m.v[i0] with start := offset }] ++ m.v.drop (i0 + 1)).length + 1)
      _ (split_chain hinv hi0 hlt1 hp0) (i0 + 1) (i0 + 1) 3 (le_refl (i0 + 1))
    simp at hloop
    simp [hloop]

/-! ### Derived forms of the tiling invariant -/

theorem chain_pairwise_lt {size : Nat} {v : List (Elem T)} (hc : chain 0 v size) :
    v.Pairwise fun a b => a.start < b.start := by
  rw [List.pairwise_iff_getElem]
  intro i j hi hj hij
  have h1 := (chain_getElem hc i hi).2.1
  have h2 := chain_stop_le_start hc hij hj (by omega)
  omega

theorem chain_pairwise_disjoint {size : Nat} {v : List (Elem T)}
    (hc : chain 0 v size) : v.Pairwise fun a b => a.stop ≤ b.start := by
  rw [List.pairwise_iff_getElem]
  intro i j hi hj hij
  exact chain_stop_le_start hc hij hj (by omega)

theorem chain_mem_nonempty {size : Nat} {v : List (Elem T)} (hc : chain 0 v size) :
    ∀ e ∈ v, e.start < e.stop := by
  intro e he
  obtain ⟨i, hi, hie⟩ := List.mem_iff_getElem.mp he
  rw [← hie]
  exact (chain_getElem hc i hi).2.1

theorem chain_covers {size : Nat} {v : List (Elem T)} (hc : chain 0 v size) :
    ∀ o, o < size ↔ ∃ e ∈ v, e.start ≤ o ∧ o < e.stop := by
  intro o
  constructor
  · intro ho
    obtain ⟨i, hi, ha, hb⟩ := chain_exists_contains hc (Nat.zero_le o) ho
    exact ⟨v[i], List.getElem_mem hi, ha, hb⟩
  · rintro ⟨e, he, ha, hb⟩
    obtain ⟨i, hi, hie⟩ := List.mem_iff_getElem.mp he
    have := (chain_getElem hc i hi).2.2
    rw [hie] at this
    omega

theorem new_Inv (size : Nat) (init : T) : (RangeMap.new size init).Inv size := by
  rcases Nat.eq_zero_or_pos size with hz | hp
  · subst hz
    simp [RangeMap.new, RangeMap.Inv, chain]
  · simp only [RangeMap.new, if_pos hp]
    exact ⟨rfl, hp, rfl⟩

theorem iter_mut_all_chain {size : Nat} {m : RangeMap T} (hinv : m.Inv size)
    (f : T → T) : (m.iter_mut_all f).Inv size := by
  refine chain_congr_ranges ?_ hinv
  show m.v.map (fun e => (e.start, e.stop)) =
    (m.v.map fun e => { e with data := f e.data }).map (fun e => (e.start, e.stop))
  rw [List.map_map]
  rfl

theorem new_covVal {size : Nat} (init : T) {o : Nat} (ho : o < size) :
    covVal (RangeMap.new size init).v o = some init := by
  have hp : 0 < size := by omega
  simp only [RangeMap.new, if_pos hp, covVal]
  rw [if_pos (by simp; omega)]

/-- Totality and invariant preservation for whole call sequences. -/
theorem execAll_post [DecidableEq T] {size : Nat} :
    ∀ (calls : List (Call T)) (m : RangeMap T), m.Inv size →
      (∀ c ∈ calls, c.valid size) →
      ∃ m2, execAll m calls = some m2 ∧ m2.Inv size := by
  intro calls
  induction calls with
  | nil => intro m hm _; exact ⟨m, rfl, hm⟩
  | cons c cs ih =>
    intro m hm hv
    match c with
    | .read offset len =>
      obtain ⟨m2, h1, h2⟩ := ih m hm (fun x hx => hv x (List.mem_cons_of_mem _ hx))
      exact ⟨m2, h1, h2⟩
    | .mutate offset len f =>
      have hb : offset + len ≤ size := hv _ (List.mem_cons_self _ _)
      obtain ⟨m1, hm1, hinv1, _, _⟩ := mutateWith_post hm hb f
      obtain ⟨m2, h1, h2⟩ := ih m1 hinv1
        (fun x hx => hv x (List.mem_cons_of_mem _ hx))
      refine ⟨m2, ?_, h2⟩
      rw [execAll, exec, hm1]
      exact h1
    | .mutateAll f =>
      obtain ⟨m2, h1, h2⟩ := ih (m.iter_mut_all f) (iter_mut_all_chain hm f)
        (fun x hx => hv x (List.mem_cons_of_mem _ hx))
      exact ⟨m2, h1, h2⟩

/-- Byte-level semantics of whole mutate sequences. -/
theorem runMutates_covVal [DecidableEq T] {size : Nat} :
    ∀ (calls : List (Nat × Nat × (T → T))) (m : RangeMap T) (g : Nat → T),
      m.Inv size →
      (∀ o, o < size → covVal m.v o = some (g o)) →
      (∀ c ∈ calls, c.1 + c.2.1 ≤ size) →
      ∃ m2, runMutates m calls = some m2 ∧ m2.Inv size ∧
        ∀ o, o < size → covVal m2.v o = some (specByte (g o) o calls) := by
  intro calls
  induction calls with
  | nil =>
    intro m g hm hg _
    exact ⟨m, rfl, hm, fun o ho => hg o ho⟩
  | cons c cs ih =>
    intro m g hm hg hv
    have hb : c.1 + c.2.1 ≤ size := hv _ (List.mem_cons_self _ _)
    obtain ⟨m1, hm1, hinv1, hcov1, _⟩ := mutateWith_post hm hb c.2.2
    have hg1 : ∀ o, o < size →
        covVal m1.v o = some (if c.1 ≤ o ∧ o < c.1 + c.2.1 then c.2.2 (g o)
          else g o) := by
      intro o ho
      rw [hcov1 o]
      by_cases hcase : c.1 ≤ o ∧ o < c.1 + c.2.1
      · rw [if_pos hcase, if_pos hcase, hg o ho]
        rfl
      · rw [if_neg hcase, if_neg hcase, hg o ho]
    obtain ⟨m2, h1, h2, h3⟩ := ih m1 _ hinv1 hg1
      (fun x hx => hv x (List.mem_cons_of_mem _ hx))
    refine ⟨m2, ?_, h2, ?_⟩
    · rw [runMutates, hm1]
      exact h1
    · intro o ho
      rw [h3 o ho]
      rfl

end RangeMapModel

namespace RangeMapModel

variable {T : Type}

/-! ### Claim theorems -/

/-- C8: for every offset `o`, including `o = total_size`, `read(o, 0)` and
`mutate(o, 0)` yield an empty sequence, never locate any segment (so no
bounds assertion can fire), perform no split and no merge, and leave the
segment sequence entirely unchanged. -/
theorem zero_length_noop [DecidableEq T] (m : RangeMap T) (offset : Nat)
    (f : T → T) :
    m.iter offset 0 = some [] ∧
    m.iter_mut_state offset 0 = some (m, 0, 0) ∧
    m.mutateWith offset 0 f = some m :=
  ⟨rfl, rfl, mutateWith_len_zero m offset f⟩

/-- C9 counterexample: on a map with total_size 1, the call `read(0, 1)` has
`offset + length = 1`, which lies outside `[0, total_size) = [0, 1)`, yet no
assertion fires: the call proceeds normally and yields the stored value. -/
theorem oob_detection_counterexample :
    ¬ (0 + 1 < 1) ∧ (RangeMap.new 1 (0 : Int)).iter 0 1 = some [0] := by
  constructor
  · decide
  · rfl

/-- C9 (amended): in the assertion-enabled configuration, every `read` or
`mutate` with positive length whose offset is not less than `total_size` is
detected by an assertion failure, and every `mutate` with positive length
whose `offset + length` exceeds `total_size` is likewise detected.  (Reads
with the offset in range are not checked against `offset + length` — see C10
— and zero-length calls perform no checks.) -/
theorem oob_detection_amended [DecidableEq T] {size : Nat} {m : RangeMap T}
    (hinv : m.Inv size) (offset len : Nat) (hl : 0 < len) (f : T → T) :
    (size ≤ offset → m.iter offset len = none ∧
      m.mutateWith offset len f = none) ∧
    (offset < size → size < offset + len → m.mutateWith offset len f = none) := by
  constructor
  · intro ho
    refine ⟨iter_offset_oob hinv hl ho, ?_⟩
    rw [RangeMap.mutateWith, iter_mut_state_offset_oob hinv hl ho]
    rfl
  · intro ho hover
    rw [RangeMap.mutateWith, iter_mut_state_end_oob hinv ho hover]
    rfl

theorem oob_detection_amended_witness :
    ((RangeMap.new 5 (0 : Int)).iter 7 1 = none ∧
      (RangeMap.new 5 (0 : Int)).mutateWith 7 1 (fun x => x) = none) ∧
    (RangeMap.new 5 (0 : Int)).mutateWith 2 9 (fun x => x) = none :=
  ⟨(oob_detection_amended (new_Inv 5 0) 7 1 (by decide) (fun x => x)).1
      (by decide),
    (oob_detection_amended (new_Inv 5 0) 2 9 (by decide) (fun x => x)).2
      (by decide) (by decide)⟩

/-- C10: a read with positive length whose offset is in range but whose
window extends past `total_size` triggers no assertion even with assertions
enabled; it yields the values of every segment from the one containing the
offset through the final segment of the store. -/
theorem read_overlong_tail {size : Nat} {m : RangeMap T} (hinv : m.Inv size)
    {offset len : Nat} (ho : offset < size) (hl : 0 < len)
    (hover : size < offset + len) :
    ∃ i, ∃ (h : i < m.v.length), m.v[i].start ≤ offset ∧ offset < m.v[i].stop ∧
      m.iter offset len = some ((m.v.drop i).map Elem.data) := by
  obtain ⟨i, hi, ha, hb, hfind⟩ := find_offset_contains hinv ho
  refine ⟨i, hi, ha, hb, ?_⟩
  rw [RangeMap.iter, if_neg (by omega), hfind]
  simp only
  congr 1
  have hall : ∀ x ∈ m.v.drop i, decide (x.start < offset + len) = true := by
    intro x hx
    have hmem : x ∈ m.v := List.mem_of_mem_drop hx
    have hne := chain_mem_nonempty hinv x hmem
    obtain ⟨j, hj, hjx⟩ := List.mem_iff_getElem.mp hmem
    have h2 := (chain_getElem hinv j hj).2.2
    rw [hjx] at h2
    simp
    omega
  rw [List.takeWhile_eq_self_iff.mpr hall]

theorem read_overlong_tail_witness :
    ∃ i, ∃ (h : i < (RangeMap.new 5 (0 : Int)).v.length),
      (RangeMap.new 5 (0 : Int)).v[i].start ≤ 2 ∧
      2 < (RangeMap.new 5 (0 : Int)).v[i].stop ∧
      (RangeMap.new 5 (0 : Int)).iter 2 9 =
        some (((RangeMap.new 5 (0 : Int)).v.drop i).map Elem.data) :=
  read_overlong_tail (new_Inv 5 0) (by decide) (by decide) (by decide)

/-- C2: for every total size and every sequence of valid read / mutate /
mutate-all calls, the stored segments afterwards (hence at every point
between public calls, since every prefix is itself such a sequence) are
sorted strictly ascending by start, pairwise non-overlapping, each
non-empty, and jointly cover exactly `[0, total_size)` with no gaps and no
elements outside range; the store is empty when `total_size = 0`. -/
theorem tiling_invariant_maintained [DecidableEq T] (size : Nat) (init : T)
    (calls : List (Call T)) (hv : ∀ c ∈ calls, c.valid size) :
    ∃ m2, execAll (RangeMap.new size init) calls = some m2 ∧
      m2.v.Pairwise (fun a b => a.start < b.start) ∧
      m2.v.Pairwise (fun a b => a.stop ≤ b.start) ∧
      (∀ e ∈ m2.v, e.start < e.stop) ∧
      (∀ o, o < size ↔ ∃ e ∈ m2.v, e.start ≤ o ∧ o < e.stop) ∧
      (size = 0 → m2.v = []) := by
  obtain ⟨m2, h1, h2⟩ := execAll_post calls (RangeMap.new size init)
    (new_Inv size init) hv
  exact ⟨m2, h1, chain_pairwise_lt h2, chain_pairwise_disjoint h2,
    chain_mem_nonempty h2, chain_covers h2,
    fun hz => chain_size_zero (by rw [hz] at h2; exact h2)⟩

theorem tiling_invariant_maintained_witness :
    ∃ m2, execAll (RangeMap.new 4 (0 : Int))
        [Call.mutate 1 2 (fun _ => 5), Call.read 0 3,
          Call.mutateAll (fun x => x + 1)] = some m2 ∧
      m2.v.Pairwise (fun a b => a.start < b.start) ∧
      m2.v.Pairwise (fun a b => a.stop ≤ b.start) ∧
      (∀ e ∈ m2.v, e.start < e.stop) ∧
      (∀ o, o < 4 ↔ ∃ e ∈ m2.v, e.start ≤ o ∧ o < e.stop) ∧
      ((4 : Nat) = 0 → m2.v = []) :=
  tiling_invariant_maintained 4 0 _ (by
    intro c hc
    fin_cases hc <;> simp [Call.valid])

/-- C1: for every offset `o` with `0 ≤ o < total_size`, after any sequence of
valid mutate calls (each writing values through the yielded mutable
references, modelled by the per-call write function), `read(o, 1)` yields
exactly one value: the most recently written value covering `o`, or the
initial value given at construction if no write ever covered `o`. -/
theorem read_yields_most_recent_write [DecidableEq T] {size : Nat} (init : T)
    (calls : List (Nat × Nat × (T → T)))
    (hv : ∀ c ∈ calls, c.1 + c.2.1 ≤ size) {o : Nat} (ho : o < size) :
    ∃ m2, runMutates (RangeMap.new size init) calls = some m2 ∧
      m2.iter o 1 = some [specByte init o calls] := by
  obtain ⟨m2, h1, h2, h3⟩ := runMutates_covVal calls (RangeMap.new size init)
    (fun _ => init) (new_Inv size init) (fun o2 ho2 => new_covVal init ho2) hv
  obtain ⟨t, ht1, ht2⟩ := iter_one h2 ho
  rw [h3 o ho] at ht1
  have heq := Option.some_inj.mp ht1
  refine ⟨m2, h1, ?_⟩
  rw [ht2, ← heq]

theorem read_yields_most_recent_write_witness :
    ∃ m2, runMutates (RangeMap.new 6 (0 : Int))
        [(1, 3, fun _ => 7), (2, 2, fun x => x + 1)] = some m2 ∧
      m2.iter 2 1 =
        some [specByte 0 2 [(1, 3, fun _ => 7), (2, 2, fun x => x + 1)]] :=
  read_yields_most_recent_write 0 _
    (by intro c hc; fin_cases hc <;> norm_num) (by decide)

/-- C4: for every valid window (positive length, `offset + len ≤ total_size`),
after `mutate(offset, len)` returns its sequence, every yielded value's
segment lies entirely within `[offset, offset + len)`, and no segment of the
store straddles either window boundary. -/
theorem mutate_window_containment [DecidableEq T] {size : Nat} {m : RangeMap T}
    (hinv : m.Inv size) {offset len : Nat} (hl : 0 < len)
    (hb : offset + len ≤ size) :
    ∃ m3 first endI, m.iter_mut_state offset len = some (m3, first, endI + 1) ∧
      first ≤ endI ∧ endI < m3.v.length ∧
      (∀ i (h : i < m3.v.length), first ≤ i → i ≤ endI →
        offset ≤ m3.v[i].start ∧ m3.v[i].stop ≤ offset + len) ∧
      (∀ i (h : i < m3.v.length),
        ¬ (m3.v[i].start < offset ∧ offset < m3.v[i].stop) ∧
        ¬ (m3.v[i].start < offset + len ∧ offset + len < m3.v[i].stop)) := by
  obtain ⟨m3, first, endI, hstate, hw⟩ := iter_mut_state_post hinv hl hb
  have hfirstlt : first < m3.v.length := by
    have := hw.wfe
    have := hw.wel
    omega
  have hstartf := hw.wstart hfirstlt
  have hstopI := hw.wstop hw.wel
  have hwel := hw.wel
  refine ⟨m3, first, endI, hstate, hw.wfe, hw.wel, ?_, ?_⟩
  · intro i h hfi hie
    constructor
    · have hmono := chain_start_mono hw.wchain hfi h (by omega)
      rw [hstartf] at hmono
      exact hmono
    · rcases Nat.eq_or_lt_of_le hie with hq | hq
      · subst hq
        rw [hw.wstop h]
      · exact le_of_lt (hw.winner i h hfi hq)
  · intro i h
    constructor
    · rintro ⟨ha, hb2⟩
      have hfstop : offset < m3.v[first].stop := by
        have := (chain_getElem hw.wchain first hfirstlt).2.1
        omega
      have heq := chain_contains_unique hw.wchain h hfirstlt
        (le_of_lt ha) hb2 (le_of_eq hstartf) hfstop
      have hconv : m3.v[i] = m3.v[first] := by
        congr 1
      rw [hconv] at ha
      omega
    · rintro ⟨ha, hb2⟩
      have hstop2 := (chain_getElem hw.wchain i h).2.2
      have hlt2 : offset + len < size := by omega
      have hE1 : endI + 1 < m3.v.length := by
        by_contra hcon
        have hlast := chain_last hw.wchain (by omega)
        have hwel := hw.wel
        have hconv : m3.v[m3.v.length - 1] = m3.v[endI] := by
          congr 1 <;> omega
        rw [hconv, hstopI] at hlast
        omega
      have hstartE1 : (m3.v[endI + 1]).start = offset + len := by
        have := chain_stop_eq_start hw.wchain endI hE1
        rw [hstopI] at this
        exact this.symm
      have hstopE1 : offset + len < (m3.v[endI + 1]).stop := by
        have := (chain_getElem hw.wchain (endI + 1) hE1).2.1
        omega
      have heq := chain_contains_unique hw.wchain h hE1
        (le_of_lt ha) hb2 (le_of_eq hstartE1) hstopE1
      have hconv : m3.v[i] = m3.v[endI + 1] := by
        congr 1
      rw [hconv] at ha
      omega

theorem mutate_window_containment_witness :
    ∃ m3 first endI, (RangeMap.new 10 (-1 : Int)).iter_mut_state 3 4 =
        some (m3, first, endI + 1) ∧
      first ≤ endI ∧ endI < m3.v.length ∧
      (∀ i (h : i < m3.v.length), first ≤ i → i ≤ endI →
        3 ≤ m3.v[i].start ∧ m3.v[i].stop ≤ 3 + 4) ∧
      (∀ i (h : i < m3.v.length),
        ¬ (m3.v[i].start < 3 ∧ 3 < m3.v[i].stop) ∧
        ¬ (m3.v[i].start < 3 + 4 ∧ 3 + 4 < m3.v[i].stop)) :=
  mutate_window_containment (new_Inv 10 (-1)) (by decide) (by decide)

end RangeMapModel

namespace RangeMapModel

variable {T : Type}

/-- C5: the concrete fragmentation-then-re-merge scenario on a size-20 map
with initial value -1: writing 42 at offset 11 (len 1), then 43 at offset 15
(len 1) yields 5 segments; writing 23 at every byte of [10,20) whose current
value is below 42 yields 6 segments with bytes 10 and 12-14 and 16-19
reading 23, byte 11 reading 42 and byte 15 reading 43; writing 19 across
[15,20) yields 6 segments; a no-value-changing mutate over [15,20) collapses
the five equal 19-valued bytes at the tail into one segment, reducing the
segment count to 5. -/
theorem fragmentation_remerge_scenario :
    ∃ m1 m2 m3 m4 m5 : RangeMap Int,
      (RangeMap.new 20 (-1)).mutateWith 11 1 (fun _ => 42) = some m1 ∧
      m1.mutateWith 15 1 (fun _ => 43) = some m2 ∧
      m2.v.length = 5 ∧
      m2.mutateWith 10 10 (fun x => if x < 42 then 23 else x) = some m3 ∧
      m3.v.length = 6 ∧
      m3.iter 10 1 = some [23] ∧ m3.iter 11 1 = some [42] ∧
      m3.iter 12 1 = some [23] ∧ m3.iter 13 1 = some [23] ∧
      m3.iter 14 1 = some [23] ∧ m3.iter 15 1 = some [43] ∧
      m3.iter 16 1 = some [23] ∧ m3.iter 17 1 = some [23] ∧
      m3.iter 18 1 = some [23] ∧ m3.iter 19 1 = some [23] ∧
      m3.mutateWith 15 5 (fun _ => 19) = some m4 ∧
      m4.v.length = 6 ∧
      m4.mutateWith 15 5 (fun x => x) = some m5 ∧
      m5.v.length = 5 ∧
      m5.v.drop 4 = [⟨15, 20, 19⟩] := by
  refine ⟨⟨[⟨0, 11, -1⟩, ⟨11, 12, 42⟩, ⟨12, 20, -1⟩]⟩,
    ⟨[⟨0, 11, -1⟩, ⟨11, 12, 42⟩, ⟨12, 15, -1⟩, ⟨15, 16, 43⟩, ⟨16, 20, -1⟩]⟩,
    ⟨[⟨0, 10, -1⟩, ⟨10, 11, 23⟩, ⟨11, 12, 42⟩, ⟨12, 15, 23⟩, ⟨15, 16, 43⟩,
      ⟨16, 20, 23⟩]⟩,
    ⟨[⟨0, 10, -1⟩, ⟨10, 11, 23⟩, ⟨11, 12, 42⟩, ⟨12, 15, 23⟩, ⟨15, 16, 19⟩,
      ⟨16, 20, 19⟩]⟩,
    ⟨[⟨0, 10, -1⟩, ⟨10, 11, 23⟩, ⟨11, 12, 42⟩, ⟨12, 15, 23⟩, ⟨15, 20, 19⟩]⟩,
    ?_, ?_, ?_, ?_, ?_, ?_, ?_, ?_, ?_, ?_, ?_, ?_, ?_, ?_, ?_, ?_, ?_, ?_,
    ?_⟩ <;> decide

end RangeMapModel

namespace RangeMapModel

variable {T : Type}

/-! ### The no-op mutate -/

theorem mapWindow_id {v : List (Elem T)} {lo hi : Nat}
    (h1 : lo ≤ hi) (h2 : hi ≤ v.length) :
    mapWindow (fun x => x) v lo hi = v := by
  rw [mapWindow_eq]
  have hmap : (((v.drop lo).take (hi - lo)).map
      fun e => { e with data := e.data }) = (v.drop lo).take (hi - lo) := by
    have hfun : (fun (e : Elem T) => { e with data := e.data }) = id := rfl
    rw [hfun, List.map_id]
  rw [hmap, List.append_assoc, ← window_decompose h1 h2]

/-- On a window that is already normalized (boundaries aligned, inner stops
below the target, the first three adjacent pairs distinct), the scan loop
changes nothing: every close is a miss until the budget dies, and the scan
then slides to the stopping element. -/
theorem mutLoop_noop [DecidableEq T] {size tgt first endI : Nat}
    {v : List (Elem T)} (hc : chain 0 v size) (hfe : first ≤ endI)
    (hel : endI < v.length)
    (hinner : ∀ i (h : i < v.length), first ≤ i → i < endI → v[i].stop < tgt)
    (hstop : tgt ≤ v[endI].stop)
    (hdist : ∀ i (hi : i < v.length) (hi1 : i + 1 < v.length),
      first ≤ i → i < first + 3 → i + 1 ≤ endI →
      v[i].data ≠ (v[i + 1]).data) :
    ∀ fuel es e smc, first ≤ e → e ≤ endI →
      (0 < smc → es = e ∧ smc + (e - first) = 3) →
      (smc = 0 → 3 ≤ e - first) →
      endI + 1 ≤ e + fuel →
      mutLoop tgt fuel v es e smc = some (v, endI + 1) := by
  intro fuel
  induction fuel with
  | zero => intro es e smc h1 h2 h3 h4 h5; omega
  | succ fuel ih =>
    intro es e smc h1 h2 h3 h4 h5
    have hev : e < v.length := by omega
    rcases Nat.eq_or_lt_of_le h2 with heq | hlt
    · -- at the stopping element
      subst heq
      rcases Nat.eq_zero_or_pos smc with hsm | hsm
      · subst hsm
        exact mutLoop_step_done_zero hev hstop
      · obtain ⟨hes, _⟩ := h3 hsm
        subst hes
        exact mutLoop_step_done_miss hev hstop hsm (le_refl _)
    · -- strictly before the stopping element
      have hnd : ¬ tgt ≤ v[e].stop := by
        have := hinner e hev h1 hlt
        omega
      have hlen : e + 1 < v.length := by omega
      rcases Nat.eq_zero_or_pos smc with hsm | hsm
      · subst hsm
        rw [mutLoop_step_cont_zero hev hnd hlen]
        exact ih es (e + 1) 0 (by omega) (by omega)
          (fun hpos => absurd hpos (lt_irrefl 0)) (fun _ => by have := h4 rfl; omega)
          (by omega)
      · obtain ⟨hes, hsum⟩ := h3 hsm
        subst hes
        have hne : (v[es + 1]).data ≠ (v[es]).data := by
          intro hcon
          exact hdist es hev hlen h1 (by omega) (by omega) hcon.symm
        rw [mutLoop_step_cont_miss hev hnd hlen hev hsm hne (le_refl _)]
        exact ih (es + 1) (es + 1) (smc - 1) (by omega) (by omega)
          (fun hpos => ⟨rfl, by omega⟩) (fun hz => by omega) (by omega)

/-- A store already normalized for the window is a fixed point of
`iter_mut_state`. -/
theorem iter_mut_state_fixpoint [DecidableEq T] {size offset len : Nat}
    {m3 : RangeMap T} (hc : chain 0 m3.v size) {first endI : Nat}
    (hl : 0 < len) (hfe : first ≤ endI) (hel : endI < m3.v.length)
    (hstartf : ∀ (h : first < m3.v.length), m3.v[first].start = offset)
    (hinner : ∀ i (h : i < m3.v.length), first ≤ i → i < endI →
      m3.v[i].stop < offset + len)
    (hstopI : ∀ (h : endI < m3.v.length), m3.v[endI].stop = offset + len)
    (hdist : ∀ i (hi : i < m3.v.length) (hi1 : i + 1 < m3.v.length),
      first ≤ i → i < first + 3 → i + 1 ≤ endI →
      m3.v[i].data ≠ (m3.v[i + 1]).data) :
    m3.iter_mut_state offset len = some (m3, first, endI + 1) := by
  have hfl : first < m3.v.length := by omega
  have hstart := hstartf hfl
  have hstop := hstopI hel
  have hfind : m3.find_offset offset = some first := by
    apply find_offset_eq_some hc hfl (le_of_eq hstart)
    have := (chain_getElem hc first hfl).2.1
    omega
  simp only [RangeMap.iter_mut_state, if_neg (by omega : ¬ len = 0)]
  rw [hfind]
  simp only
  rw [split_index_noop hfl (Or.inl hstart.symm)]
  simp only
  have hloop := mutLoop_noop hc hfe hel hinner (le_of_eq hstop.symm) hdist
    (m3.v.length + 1) first first 3 (le_refl _) hfe
    (fun _ => ⟨rfl, by omega⟩) (fun hz => by omega) (by omega)
  simp only [Bool.false_eq_true, if_false]
  rw [hloop]
  simp only [Nat.add_sub_cancel]
  have hsplit2 : RangeMap.split_index ⟨m3.v⟩ endI (offset + len) =
      some (⟨m3.v⟩, false) := split_index_noop hel (Or.inr hstop.symm)
  rw [hsplit2]

/-- C6 counterexample: on a fresh map of size 10 the no-op `mutate(3, 4)`
splits both window boundaries and the merge scan never rejoins them, so the
segment count strictly increases from 1 to 3, contradicting "never increases
the segment count". -/
theorem noop_mutate_count_counterexample :
    (RangeMap.new 10 (-1 : Int)).mutateWith 3 4 (fun x => x) =
      some ⟨[⟨0, 3, -1⟩, ⟨3, 7, -1⟩, ⟨7, 10, -1⟩]⟩ ∧
    (RangeMap.new 10 (-1 : Int)).v.length = 1 ∧
    (⟨[⟨0, 3, -1⟩, ⟨3, 7, -1⟩, ⟨7, 10, -1⟩]⟩ : RangeMap Int).v.length = 3 := by
  refine ⟨?_, ?_, ?_⟩ <;> decide

/-- C6 (amended): for every valid window, calling `mutate(o, l)` and leaving
every yielded value unchanged increases the segment count by at most 2 (one
boundary split at each end), and immediately re-invoking the identical no-op
mutate a second time leaves the store completely unchanged (the no-op mutate
is idempotent on the store after one application). -/
theorem noop_mutate_bounded_growth_and_idempotent [DecidableEq T] {size : Nat}
    {m : RangeMap T} (hinv : m.Inv size) {offset len : Nat} (hl : 0 < len)
    (hb : offset + len ≤ size) :
    ∃ m4, m.mutateWith offset len (fun x => x) = some m4 ∧
      m4.v.length ≤ m.v.length + 2 ∧
      m4.mutateWith offset len (fun x => x) = some m4 := by
  obtain ⟨m3, first, endI, hstate, hw⟩ := iter_mut_state_post hinv hl hb
  have hwfe := hw.wfe
  have hwel := hw.wel
  have hid : mapWindow (fun x : T => x) m3.v first (endI + 1) = m3.v :=
    mapWindow_id (by omega) (by omega)
  have hm4 : m.mutateWith offset len (fun x => x) = some m3 := by
    rw [RangeMap.mutateWith, hstate]
    show some (⟨mapWindow (fun x => x) m3.v first (endI + 1)⟩ : RangeMap T)
      = some m3
    rw [hid]
  refine ⟨m3, hm4, by have := hw.wlen; omega, ?_⟩
  rw [RangeMap.mutateWith,
    iter_mut_state_fixpoint hw.wchain hl hw.wfe hw.wel hw.wstart hw.winner
      hw.wstop hw.wdist]
  show some (⟨mapWindow (fun x => x) m3.v first (endI + 1)⟩ : RangeMap T)
    = some m3
  rw [hid]

theorem noop_mutate_witness :
    ∃ m4, (RangeMap.new 10 (-1 : Int)).mutateWith 3 4 (fun x => x) = some m4 ∧
      m4.v.length ≤ (RangeMap.new 10 (-1 : Int)).v.length + 2 ∧
      m4.mutateWith 3 4 (fun x => x) = some m4 :=
  noop_mutate_bounded_growth_and_idempotent (new_Inv 10 (-1)) (by decide)
    (by decide)

end RangeMapModel

namespace RangeMapModel

variable {T : Type}

/-- With the budget at zero the loop never touches the store: it degenerates
to the plain extent scan. -/
theorem mutLoop_budget_zero [DecidableEq T] (tgt : Nat) :
    ∀ fuel (v : List (Elem T)) es e,
      mutLoop tgt fuel v es e 0 =
        (extentScan tgt fuel v e).map (fun j => (v, j)) := by
  intro fuel
  induction fuel with
  | zero => intro v es e; rfl
  | succ fuel ih =>
    intro v es e
    rcases Nat.lt_or_ge e v.length with he | he
    · by_cases hdone : tgt ≤ v[e].stop
      · rw [mutLoop_step_done_zero he hdone]
        have hscan : extentScan tgt (fuel + 1) v e = some (e + 1) := by
          simp only [extentScan, List.getElem?_eq_getElem he]
          simp [hdone]
        rw [hscan]
        rfl
      · rcases Nat.lt_or_ge (e + 1) v.length with hlen | hlen
        · rw [mutLoop_step_cont_zero he hdone hlen]
          have hscan : extentScan tgt (fuel + 1) v e =
              extentScan tgt fuel v (e + 1) := by
            simp only [extentScan, List.getElem?_eq_getElem he]
            simp [hdone, hlen]
          rw [hscan, ih]
        · rw [mutLoop_step_assert he hdone hlen]
          have hscan : extentScan tgt (fuel + 1) v e = none := by
            simp only [extentScan, List.getElem?_eq_getElem he]
            simp [hdone, hlen]
          rw [hscan]
          rfl
    · rw [mutLoop_step_oob he]
      have hscan : extentScan tgt (fuel + 1) v e = none := by
        simp only [extentScan, List.getElem?_eq_none he]
      rw [hscan]
      rfl

/-- C3: the merge budget of the forward scan.  (i) Once the counter reaches
zero, no further merge attempt is made and the store stays untouched, while
the scan itself still continues until it reaches the segment whose end
reaches or exceeds `offset+len` (the plain extent scan).  (ii) Each run of
size one that fails to merge (a miss) decrements the counter by one.
(iii) Each successful merge (a hit) removes `end_idx - equal_since_idx - 1`
segments and increases the counter by exactly the number removed.  (iv) The
scan performed by `iter_mut` starts with the counter initialized to 3. -/
theorem merge_budget_dynamics [DecidableEq T] (tgt : Nat) :
    (∀ fuel (v : List (Elem T)) es e,
      mutLoop tgt fuel v es e 0 =
        (extentScan tgt fuel v e).map (fun j => (v, j))) ∧
    (∀ fuel (v : List (Elem T)) e smc (he : e < v.length),
      ¬ tgt ≤ v[e].stop → ∀ (hlen : e + 1 < v.length), 0 < smc →
      (v[e + 1]).data ≠ v[e].data →
      mutLoop tgt (fuel + 1) v e e smc =
        mutLoop tgt fuel v (e + 1) (e + 1) (smc - 1)) ∧
    (∀ fuel (v : List (Elem T)) es e smc (he : e < v.length)
      (hes : es < v.length),
      ¬ tgt ≤ v[e].stop → ∀ (hlen : e + 1 < v.length), 0 < smc →
      (v[e + 1]).data ≠ v[es].data → es < e →
      mutLoop tgt (fuel + 1) v es e smc =
        mutLoop tgt fuel
          (v.take es ++ [{ v[es] with stop := v[e].stop }] ++ v.drop (e + 1))
          (es + 1) (es + 1) (smc + (e - es))) ∧
    (∀ (m : RangeMap T) offset len i0 m1 ds, 0 < len →
      m.find_offset offset = some i0 →
      m.split_index i0 offset = some (m1, ds) →
      m.iter_mut_state offset len =
        match mutLoop (offset + len) (m1.v.length + 1) m1.v
            (if ds then i0 + 1 else i0) (if ds then i0 + 1 else i0) 3 with
        | none => none
        | some (v2, end_excl) =>
          match RangeMap.split_index ⟨v2⟩ (end_excl - 1) (offset + len) with
          | none => none
          | some (m3, _) => some (m3, (if ds then i0 + 1 else i0),
              end_excl - 1 + 1)) := by
  refine ⟨mutLoop_budget_zero tgt, ?_, ?_, ?_⟩
  · intro fuel v e smc he hnd hlen hsm hne
    exact mutLoop_step_cont_miss he hnd hlen he hsm hne (le_refl e)
  · intro fuel v es e smc he hes hnd hlen hsm hne hlt
    exact mutLoop_step_cont_merge he hnd hlen hes hsm hne hlt
  · intro m offset len i0 m1 ds hl hfind hsplit
    simp only [RangeMap.iter_mut_state, if_neg (by omega : ¬ len = 0)]
    rw [hfind]
    simp only
    rw [hsplit]

theorem merge_budget_dynamics_witness :
    (mutLoop 3 5 [(⟨0, 1, 1⟩ : Elem Int), ⟨1, 2, 2⟩, ⟨2, 3, 1⟩] 0 0 3 =
      mutLoop 3 4 [(⟨0, 1, 1⟩ : Elem Int), ⟨1, 2, 2⟩, ⟨2, 3, 1⟩] 1 1 2) ∧
    (mutLoop 9 5 [(⟨0, 1, 4⟩ : Elem Int), ⟨1, 2, 4⟩, ⟨2, 3, 7⟩, ⟨3, 9, 7⟩]
        0 1 3 =
      mutLoop 9 4 [(⟨0, 2, 4⟩ : Elem Int), ⟨2, 3, 7⟩, ⟨3, 9, 7⟩] 1 1 4) ∧
    ((RangeMap.new 4 (0 : Int)).iter_mut_state 1 2 =
      match mutLoop 3 3 [(⟨0, 1, 0⟩ : Elem Int), ⟨1, 4, 0⟩] 1 1 3 with
      | none => none
      | some (v2, end_excl) =>
        match RangeMap.split_index ⟨v2⟩ (end_excl - 1) 3 with
        | none => none
        | some (m3, _) => some (m3, 1, end_excl - 1 + 1)) := by
  refine ⟨?_, ?_, ?_⟩
  · exact (merge_budget_dynamics 3).2.1 4
      [(⟨0, 1, 1⟩ : Elem Int), ⟨1, 2, 2⟩, ⟨2, 3, 1⟩] 0 3 (by decide)
      (by decide) (by decide) (by decide) (by decide)
  · have h := (merge_budget_dynamics 9).2.2.1 4
      [(⟨0, 1, 4⟩ : Elem Int), ⟨1, 2, 4⟩, ⟨2, 3, 7⟩, ⟨3, 9, 7⟩] 0 1 3
      (by decide) (by decide) (by decide) (by decide) (by decide) (by decide)
      (by decide)
    exact h
  · have h := (merge_budget_dynamics 0).2.2.2 (RangeMap.new 4 (0 : Int)) 1 2 0
      ⟨[⟨0, 1, 0⟩, ⟨1, 4, 0⟩]⟩ true (by decide) (by decide) (by decide)
    exact h

end RangeMapModel

namespace RangeMapModel

variable {T : Type}

/-! ### Lists of the shape `A ++ X :: B` -/

theorem pivot_length {A B : List (Elem T)} {X : Elem T} :
    (A ++ X :: B).length = A.length + 1 + B.length := by
  simp
  omega

theorem pivot_getElem_low {A B : List (Elem T)} {X : Elem T} {i : Nat}
    (h : i < A.length) :
    ∀ (hc : i < (A ++ X :: B).length), (A ++ X :: B)[i] = A[i] := by
  intro hc
  exact List.getElem_append_left h

theorem pivot_getElem_at {A B : List (Elem T)} {X : Elem T} :
    (A ++ X :: B)[A.length] = X := by
  rw [List.getElem_append_right (le_refl A.length)]
  simp

theorem pivot_take {A B : List (Elem T)} {X : Elem T} {i : Nat}
    (h : i ≤ A.length) : (A ++ X :: B).take i = A.take i := by
  rw [List.take_append_eq_append_take]
  have h0 : i - A.length = 0 := by omega
  rw [h0]
  simp

theorem pivot_drop {A B : List (Elem T)} {X : Elem T} {i : Nat}
    (h : i ≤ A.length) : (A ++ X :: B).drop i = A.drop i ++ X :: B := by
  rw [List.drop_append_eq_append_drop]
  have h0 : i - A.length = 0 := by omega
  rw [h0]
  simp

theorem pivot_drop_past {A B : List (Elem T)} {X : Elem T} :
    (A ++ X :: B).drop (A.length + 1) = B := by
  rw [List.drop_append_eq_append_drop]
  have h0 : A.length + 1 - A.length = 1 := by omega
  rw [h0]
  simp

/-- The scan loop on a list `A ++ X :: B` whose `A`-part lies entirely below
the target and whose pivot `X` reaches it: the loop stops at the pivot
position; the output has the same shape, the final element keeps the pivot's
stop bound, and the returned end index is just past it. -/
theorem mutLoop_pivot [DecidableEq T] {tgt : Nat} :
    ∀ fuel (A B : List (Elem T)) (X : Elem T) es e smc,
      es ≤ e → e ≤ A.length →
      (∀ el ∈ A, el.start < tgt ∧ el.stop < tgt) →
      X.start < tgt → tgt ≤ X.stop →
      A.length + 1 ≤ e + fuel →
      ∃ C Y, mutLoop tgt fuel (A ++ X :: B) es e smc =
          some (C ++ Y :: B, C.length + 1) ∧
        Y.stop = X.stop ∧ Y.start < tgt := by
  intro fuel
  induction fuel with
  | zero =>
    intro A B X es e smc h1 h2 hA hXs hX hfuel
    omega
  | succ fuel ih =>
    intro A B X es e smc h1 h2 hA hXs hX hfuel
    have hlenL : (A ++ X :: B).length = A.length + 1 + B.length := pivot_length
    rcases Nat.eq_or_lt_of_le h2 with heq | hlt
    · -- the scan is at the pivot: done
      have heL : e < (A ++ X :: B).length := by omega
      have hgete : (A ++ X :: B)[e] = X := by
        have h0 : (A ++ X :: B)[A.length] = X := pivot_getElem_at
        have hconv : (A ++ X :: B)[e] = (A ++ X :: B)[A.length] := by
          congr 1 <;> first | rfl | omega
        rw [hconv, h0]
      have hdone : tgt ≤ ((A ++ X :: B)[e]).stop := by
        rw [hgete]
        exact hX
      rcases Nat.eq_zero_or_pos smc with hsm | hsm
      · subst hsm
        refine ⟨A, X, ?_, rfl, hXs⟩
        rw [mutLoop_step_done_zero heL hdone]
        rw [heq]
      · rcases Nat.eq_or_lt_of_le h1 with hese | hese
        · subst hese
          refine ⟨A, X, ?_, rfl, hXs⟩
          rw [mutLoop_step_done_miss heL hdone hsm (le_refl _)]
          rw [heq]
        · -- final merge including the pivot
          have hesA : es < A.length := by omega
          have hesL : es < (A ++ X :: B).length := by omega
          have hgetes : (A ++ X :: B)[es] = A[es] := pivot_getElem_low hesA hesL
          refine ⟨A.take es, { A[es] with stop := X.stop }, ?_, rfl, ?_⟩
          · rw [mutLoop_step_done_merge heL hdone hsm hese]
            have htk : (A ++ X :: B).take es = A.take es :=
              pivot_take (by omega)
            have hdp : (A ++ X :: B).drop (e + 1) = B := by
              rw [heq]
              exact pivot_drop_past
            rw [htk, hdp, hgete, hgetes]
            have hlen2 : (A.take es).length = es := by simp; omega
            rw [hlen2, List.append_assoc]
            rfl
          · have := hA A[es] (List.getElem_mem hesA)
            exact this.1
    · -- still inside `A`: not done, continue
      have heL : e < (A ++ X :: B).length := by omega
      have hgete : (A ++ X :: B)[e] = A[e] := pivot_getElem_low hlt heL
      have hndA := hA (A[e]) (List.getElem_mem hlt)
      have hnd : ¬ tgt ≤ ((A ++ X :: B)[e]).stop := by
        rw [hgete]
        omega
      have hlen : e + 1 < (A ++ X :: B).length := by omega
      rcases Nat.eq_zero_or_pos smc with hsm | hsm
      · subst hsm
        rw [mutLoop_step_cont_zero heL hnd hlen]
        exact ih A B X es (e + 1) 0 (by omega) (by omega) hA hXs hX (by omega)
      · have hesL : es < (A ++ X :: B).length := by omega
        by_cases heqd : ((A ++ X :: B)[e + 1]).data =
            ((A ++ X :: B)[es]).data
        · rw [mutLoop_step_cont_grow heL hnd hlen hesL hsm heqd]
          exact ih A B X es (e + 1) smc (by omega) (by omega) hA hXs hX (by omega)
        · rcases Nat.eq_or_lt_of_le h1 with hese | hese
          · subst hese
            rw [mutLoop_step_cont_miss heL hnd hlen hesL hsm heqd (le_refl _)]
            exact ih A B X (es + 1) (es + 1) (smc - 1) (le_refl _) (by omega)
              hA hXs hX (by omega)
          · -- merge strictly inside `A`
            have hesA : es < A.length := by omega
            have hgetes : (A ++ X :: B)[es] = A[es] := pivot_getElem_low hesA hesL
            rw [mutLoop_step_cont_merge heL hnd hlen hesL hsm heqd hese]
            have htk : (A ++ X :: B).take es = A.take es :=
              pivot_take (by omega)
            have hdp : (A ++ X :: B).drop (e + 1) = A.drop (e + 1) ++ X :: B :=
              pivot_drop (by omega)
            rw [htk, hdp, hgete, hgetes]
            have hassoc : A.take es ++ [{ A[es] with stop := (A[e]).stop }]
                ++ (A.drop (e + 1) ++ X :: B) =
                (A.take es ++ [{ A[es] with stop := (A[e]).stop }]
                  ++ A.drop (e + 1)) ++ X :: B := by
              simp [List.append_assoc]
            rw [hassoc]
            have hA2 : ∀ el ∈ A.take es ++
                [{ A[es] with stop := (A[e]).stop }] ++ A.drop (e + 1),
                el.start < tgt ∧ el.stop < tgt := by
              intro el hel
              simp only [List.mem_append, List.mem_singleton] at hel
              rcases hel with (hel | hel) | hel
              · exact hA el (List.mem_of_mem_take hel)
              · rw [hel]
                constructor
                · exact (hA A[es] (List.getElem_mem hesA)).1
                · exact (hA (A[e]) (List.getElem_mem (by omega))).2
              · exact hA el (List.mem_of_mem_drop hel)
            have hlenA2 : (A.take es ++
                [{ A[es] with stop := (A[e]).stop }]
                ++ A.drop (e + 1)).length = A.length - (e - es) := by
              simp
              omega
            exact ih _ B X (es + 1) (es + 1) (smc + (e - es)) (le_refl _)
              (by rw [hlenA2]; omega) hA2 hXs hX (by rw [hlenA2]; omega)

/-- Lockstep simulation of the scan loop on two stores that agree below the
target boundary: `A ++ X :: B` versus `A ++ X2 :: B2`, where the two pivots
share their start and data and both reach the target.  The two runs take
identical steps, stop at the pivot position with identical end indices, and
produce the same merged prefix `C` and the same final-element start and
data; each final element keeps its own pivot's stop bound. -/
theorem mutLoop_lockstep [DecidableEq T] {tgt : Nat} :
    ∀ fuel fuel2 (A B B2 : List (Elem T)) (X X2 : Elem T) es e smc,
      es ≤ e → e ≤ A.length →
      (∀ el ∈ A, el.start < tgt ∧ el.stop < tgt) →
      X.start = X2.start → X.data = X2.data → X.start < tgt →
      tgt ≤ X.stop → tgt ≤ X2.stop →
      (0 < smc → es < e → e = A.length → ∀ (hesA : es < A.length),
        A[es].data = X.data) →
      A.length + 1 ≤ e + fuel → A.length + 1 ≤ e + fuel2 →
      ∃ C y, y < tgt ∧
        mutLoop tgt fuel (A ++ X :: B) es e smc =
          some (C ++ Elem.mk y X.stop X.data :: B, C.length + 1) ∧
        mutLoop tgt fuel2 (A ++ X2 :: B2) es e smc =
          some (C ++ Elem.mk y X2.stop X2.data :: B2, C.length + 1) := by
  intro fuel
  induction fuel with
  | zero =>
    intro fuel2 A B B2 X X2 es e smc h1 h2 hA hss hdd hXs hX hX2 hd hfuel hfuel2
    omega
  | succ fuel ih =>
    intro fuel2 A B B2 X X2 es e smc h1 h2 hA hss hdd hXs hX hX2 hd hfuel hfuel2
    obtain ⟨f2, rfl⟩ : ∃ f2, fuel2 = f2 + 1 := ⟨fuel2 - 1, by omega⟩
    have hlenL : (A ++ X :: B).length = A.length + 1 + B.length := pivot_length
    have hlenL2 : (A ++ X2 :: B2).length = A.length + 1 + B2.length := pivot_length
    rcases Nat.eq_or_lt_of_le h2 with heq | hlt
    · -- the scan is at the pivot in both runs: done
      have heL : e < (A ++ X :: B).length := by omega
      have heL2 : e < (A ++ X2 :: B2).length := by omega
      have hgete : (A ++ X :: B)[e] = X := by
        have h0 : (A ++ X :: B)[A.length] = X := pivot_getElem_at
        have hconv : (A ++ X :: B)[e] = (A ++ X :: B)[A.length] := by
          congr 1 <;> first | rfl | omega
        rw [hconv, h0]
      have hgete2 : (A ++ X2 :: B2)[e] = X2 := by
        have h0 : (A ++ X2 :: B2)[A.length] = X2 := pivot_getElem_at
        have hconv : (A ++ X2 :: B2)[e] = (A ++ X2 :: B2)[A.length] := by
          congr 1 <;> first | rfl | omega
        rw [hconv, h0]
      have hdone : tgt ≤ ((A ++ X :: B)[e]).stop := by
        rw [hgete]
        exact hX
      have hdone2 : tgt ≤ ((A ++ X2 :: B2)[e]).stop := by
        rw [hgete2]
        exact hX2
      have hXeta : X = Elem.mk X.start X.stop X.data := rfl
      have hXeta2 : X2 = Elem.mk X.start X2.stop X2.data := by rw [hss]
      rcases Nat.eq_zero_or_pos smc with hsm | hsm
      · subst hsm
        refine ⟨A, X.start, hXs, ?_, ?_⟩
        · rw [mutLoop_step_done_zero heL hdone, heq, ← hXeta]
        · rw [mutLoop_step_done_zero heL2 hdone2, heq, ← hXeta2]
      · rcases Nat.eq_or_lt_of_le h1 with hese | hese
        · subst hese
          refine ⟨A, X.start, hXs, ?_, ?_⟩
          · rw [mutLoop_step_done_miss heL hdone hsm (le_refl _), heq, ← hXeta]
          · rw [mutLoop_step_done_miss heL2 hdone2 hsm (le_refl _), heq, ← hXeta2]
        · -- final merge including the pivot, in both runs
          have hesA : es < A.length := by omega
          have hesL : es < (A ++ X :: B).length := by omega
          have hesL2 : es < (A ++ X2 :: B2).length := by omega
          have hgetes : (A ++ X :: B)[es] = A[es] := pivot_getElem_low hesA hesL
          have hgetes2 : (A ++ X2 :: B2)[es] = A[es] := pivot_getElem_low hesA hesL2
          have hdes : A[es].data = X.data := hd hsm hese heq hesA
          have hdes2 : A[es].data = X2.data := by rw [hdes, hdd]
          refine ⟨A.take es, A[es].start,
            (hA A[es] (List.getElem_mem hesA)).1, ?_, ?_⟩
          · rw [mutLoop_step_done_merge heL hdone hsm hese]
            have htk : (A ++ X :: B).take es = A.take es := pivot_take (by omega)
            have hdp : (A ++ X :: B).drop (e + 1) = B := by
              rw [heq]
              exact pivot_drop_past
            rw [htk, hdp, hgete, hgetes]
            have hlen2 : (A.take es).length = es := by simp; omega
            rw [hlen2, List.append_assoc, ← hdes]
            rfl
          · rw [mutLoop_step_done_merge heL2 hdone2 hsm hese]
            have htk : (A ++ X2 :: B2).take es = A.take es := pivot_take (by omega)
            have hdp : (A ++ X2 :: B2).drop (e + 1) = B2 := by
              rw [heq]
              exact pivot_drop_past
            rw [htk, hdp, hgete2, hgetes2]
            have hlen2 : (A.take es).length = es := by simp; omega
            rw [hlen2, List.append_assoc, ← hdes2]
            rfl
    · -- still inside `A` in both runs: not done, continue
      have heL : e < (A ++ X :: B).length := by omega
      have heL2 : e < (A ++ X2 :: B2).length := by omega
      have hgete : (A ++ X :: B)[e] = A[e] := pivot_getElem_low hlt heL
      have hgete2 : (A ++ X2 :: B2)[e] = A[e] := pivot_getElem_low hlt heL2
      have hndA := hA (A[e]) (List.getElem_mem hlt)
      have hnd : ¬ tgt ≤ ((A ++ X :: B)[e]).stop := by
        rw [hgete]
        omega
      have hnd2 : ¬ tgt ≤ ((A ++ X2 :: B2)[e]).stop := by
        rw [hgete2]
        omega
      have hlen : e + 1 < (A ++ X :: B).length := by omega
      have hlen2 : e + 1 < (A ++ X2 :: B2).length := by omega
      rcases Nat.eq_zero_or_pos smc with hsm | hsm
      · subst hsm
        rw [mutLoop_step_cont_zero heL hnd hlen,
          mutLoop_step_cont_zero heL2 hnd2 hlen2]
        exact ih f2 A B B2 X X2 es (e + 1) 0 (by omega) (by omega) hA hss hdd
          hXs hX hX2 (fun h0 => absurd h0 (by omega)) (by omega) (by omega)
      · have hesL : es < (A ++ X :: B).length := by omega
        have hesL2 : es < (A ++ X2 :: B2).length := by omega
        have hesA : es < A.length := by omega
        have hgetes : (A ++ X :: B)[es] = A[es] := pivot_getElem_low hesA hesL
        have hgetes2 : (A ++ X2 :: B2)[es] = A[es] := pivot_getElem_low hesA hesL2
        have hnext : ((A ++ X :: B)[e + 1]).data = ((A ++ X2 :: B2)[e + 1]).data := by
          rcases Nat.eq_or_lt_of_le (show e + 1 ≤ A.length by omega) with hq | hq
          · rw [getElem_congr_idx hq hlen (by omega), pivot_getElem_at,
              getElem_congr_idx hq hlen2 (by omega), pivot_getElem_at]
            exact hdd
          · rw [pivot_getElem_low hq hlen, pivot_getElem_low hq hlen2]
        by_cases heqd : ((A ++ X :: B)[e + 1]).data = ((A ++ X :: B)[es]).data
        · -- the run grows, in both
          have heqd2 : ((A ++ X2 :: B2)[e + 1]).data = ((A ++ X2 :: B2)[es]).data := by
            rw [hgetes2, ← hnext, heqd, hgetes]
          rw [mutLoop_step_cont_grow heL hnd hlen hesL hsm heqd,
            mutLoop_step_cont_grow heL2 hnd2 hlen2 hesL2 hsm heqd2]
          refine ih f2 A B B2 X X2 es (e + 1) smc (by omega) (by omega) hA hss hdd
            hXs hX hX2 ?_ (by omega) (by omega)
          intro hsm3 hlt3 hq hesA3
          have hpiv : (A ++ X :: B)[e + 1] = X := by
            rw [getElem_congr_idx hq hlen (by omega), pivot_getElem_at]
          rw [← hpiv, heqd, hgetes]
        · -- the run closes, in both
          have heqd2 : ¬ ((A ++ X2 :: B2)[e + 1]).data = ((A ++ X2 :: B2)[es]).data := by
            rw [hgetes2, ← hnext, ← hgetes]
            exact heqd
          rcases Nat.eq_or_lt_of_le h1 with hese | hese
          · subst hese
            rw [mutLoop_step_cont_miss heL hnd hlen hesL hsm heqd (le_refl _),
              mutLoop_step_cont_miss heL2 hnd2 hlen2 hesL2 hsm heqd2 (le_refl _)]
            exact ih f2 A B B2 X X2 (es + 1) (es + 1) (smc - 1) (le_refl _)
              (by omega) hA hss hdd hXs hX hX2
              (fun _ h3 => absurd h3 (by omega)) (by omega) (by omega)
          · -- merge strictly inside `A`, in both
            rw [mutLoop_step_cont_merge heL hnd hlen hesL hsm heqd hese,
              mutLoop_step_cont_merge heL2 hnd2 hlen2 hesL2 hsm heqd2 hese]
            have htk : (A ++ X :: B).take es = A.take es := pivot_take (by omega)
            have htk2 : (A ++ X2 :: B2).take es = A.take es := pivot_take (by omega)
            have hdp : (A ++ X :: B).drop (e + 1) = A.drop (e + 1) ++ X :: B :=
              pivot_drop (by omega)
            have hdp2 : (A ++ X2 :: B2).drop (e + 1) = A.drop (e + 1) ++ X2 :: B2 :=
              pivot_drop (by omega)
            rw [htk, htk2, hdp, hdp2, hgete, hgete2, hgetes, hgetes2]
            have hassoc : A.take es ++ [{ A[es] with stop := (A[e]).stop }]
                ++ (A.drop (e + 1) ++ X :: B) =
                (A.take es ++ [{ A[es] with stop := (A[e]).stop }]
                  ++ A.drop (e + 1)) ++ X :: B := by
              simp [List.append_assoc]
            have hassoc2 : A.take es ++ [{ A[es] with stop := (A[e]).stop }]
                ++ (A.drop (e + 1) ++ X2 :: B2) =
                (A.take es ++ [{ A[es] with stop := (A[e]).stop }]
                  ++ A.drop (e + 1)) ++ X2 :: B2 := by
              simp [List.append_assoc]
            rw [hassoc, hassoc2]
            have hA2 : ∀ el ∈ A.take es ++
                [{ A[es] with stop := (A[e]).stop }] ++ A.drop (e + 1),
                el.start < tgt ∧ el.stop < tgt := by
              intro el hel
              simp only [List.mem_append, List.mem_singleton] at hel
              rcases hel with (hel | hel) | hel
              · exact hA el (List.mem_of_mem_take hel)
              · rw [hel]
                exact ⟨(hA A[es] (List.getElem_mem hesA)).1,
                  (hA (A[e]) (List.getElem_mem (by omega))).2⟩
              · exact hA el (List.mem_of_mem_drop hel)
            have hlenA2 : (A.take es ++
                [{ A[es] with stop := (A[e]).stop }]
                ++ A.drop (e + 1)).length = A.length - (e - es) := by
              simp
              omega
            exact ih f2 _ B B2 X X2 (es + 1) (es + 1) (smc + (e - es))
              (le_refl _) (by rw [hlenA2]; omega) hA2 hss hdd hXs hX hX2
              (fun _ h3 => absurd h3 (by omega)) (by rw [hlenA2]; omega)
              (by rw [hlenA2]; omega)

/-- Splitting just after the scan, at the stopping element `Elem.mk y S d`
whose range strictly contains the boundary: the element splits in two. -/
theorem split_after_pivot {tgt : Nat} {C B : List (Elem T)} {y S : Nat} {d : T}
    (hylt : y < tgt) (hSgt : tgt < S) :
    RangeMap.split_index ⟨C ++ Elem.mk y S d :: B⟩ (C.length + 1 - 1) tgt =
      some (⟨C ++ Elem.mk y tgt d :: Elem.mk tgt S d :: B⟩, true) := by
  have hCL : C.length < (C ++ Elem.mk y S d :: B).length := by
    rw [pivot_length]
    omega
  have h1 : ((C ++ Elem.mk y S d :: B)[C.length]).start < tgt := by
    rw [pivot_getElem_at]
    exact hylt
  have h2 : tgt < ((C ++ Elem.mk y S d :: B)[C.length]).stop := by
    rw [pivot_getElem_at]
    exact hSgt
  have h0 := split_index_split hCL h1 h2
  rw [pivot_getElem_at, pivot_take (le_refl _), List.take_length,
    pivot_drop_past, List.append_assoc] at h0
  exact h0

/-- Splitting just after the scan when the stopping element already ends at
the boundary: nothing happens. -/
theorem split_after_pivot_noop {tgt : Nat} {C B : List (Elem T)} {Y : Elem T}
    (hstop : Y.stop = tgt) :
    RangeMap.split_index ⟨C ++ Y :: B⟩ (C.length + 1 - 1) tgt =
      some (⟨C ++ Y :: B⟩, false) := by
  have hCL : C.length < (C ++ Y :: B).length := by
    rw [pivot_length]
    omega
  have hcase : tgt = ((C ++ Y :: B)[C.length]).stop := by
    rw [pivot_getElem_at, hstop]
  exact split_index_noop hCL (Or.inr hcase)

/-- C7: `mutate(offset, len)` follows the specification's two-phase order up
to refinement: the store it leaves behind (before the caller writes through
any yielded reference), the first index and the end index of the yielded
window all coincide with those of the reference algorithm
`refIterMutState`, which splits both boundary segments — the one containing
`offset` and the one containing `offset + len` — before the budgeted merge
scan begins and performs no further split afterwards; in particular both
computations succeed. -/
theorem two_phase_split_refinement [DecidableEq T] {size : Nat} {m : RangeMap T}
    (hinv : m.Inv size) {offset len : Nat} (hlen : 0 < len)
    (hbound : offset + len ≤ size) :
    m.iter_mut_state offset len = m.refIterMutState offset len ∧
    ∃ r, m.refIterMutState offset len = some r := by
  have hofflt : offset < size := by omega
  obtain ⟨i0, hi0, hs0, hp0, hfind⟩ := find_offset_contains hinv hofflt
  -- the effect of the first boundary split
  have hsplit1 : ∃ m1 ds first, m.split_index i0 offset = some (m1, ds) ∧
      first = (if ds then i0 + 1 else i0) ∧
      chain 0 m1.v size ∧
      ∃ (hf : first < m1.v.length), m1.v[first].start = offset := by
    rcases Nat.eq_or_lt_of_le hs0 with heq | hlt1
    · exact ⟨m, false, i0, split_index_noop hi0 (Or.inl heq.symm), rfl,
        hinv, hi0, heq⟩
    · refine ⟨_, true, i0 + 1, split_index_split hi0 hlt1 hp0, rfl,
        split_chain hinv hi0 hlt1 hp0, ?_⟩
      refine ⟨by rw [split_length hi0]; omega, ?_⟩
      rw [split_getElem_succ hi0]
  obtain ⟨m1, ds, first, hsplit, hfirst, hch1, hf, hstart1⟩ := hsplit1
  -- the pivot: the element containing the last byte of the window
  obtain ⟨p, hpL, hps, hpp, hfind2⟩ := find_offset_contains hch1
    (show offset + len - 1 < size by omega)
  have hpstart : m1.v[p].start < offset + len := by omega
  have hpstop : offset + len ≤ m1.v[p].stop := by omega
  have hfirstp : first ≤ p := by
    by_contra hcon
    have h1 := chain_stop_le_start hch1 (show p < first by omega) hf hpL
    rw [hstart1] at h1
    omega
  have hAlen : (m1.v.take p).length = p := by
    rw [List.length_take]
    omega
  have hdecomp : m1.v = m1.v.take p ++ m1.v[p] :: m1.v.drop (p + 1) := by
    have h0 := eq_take_append_middle hpL
    simpa using h0
  have hA : ∀ el ∈ m1.v.take p,
      el.start < offset + len ∧ el.stop < offset + len := by
    have hcA := (chain_take_drop hch1 p hpL).1
    intro el hel
    obtain ⟨j, hj, hjel⟩ := List.getElem_of_mem hel
    have hg := chain_getElem hcA j hj
    rw [hjel] at hg
    omega
  rcases Nat.eq_or_lt_of_le hpstop with hstop_eq | hstop_gt
  · -- the boundary is already an element bound: the far split is a noop in
    -- both algorithms, which therefore run the very same scan
    obtain ⟨C, Y, hloop, hYstop, hYstart⟩ := mutLoop_pivot (m1.v.length + 1)
      (m1.v.take p) (m1.v.drop (p + 1)) (m1.v[p]) first first 3
      (le_refl _) (by omega) hA hpstart hpstop (by omega)
    rw [← hdecomp] at hloop
    have hcode : m.iter_mut_state offset len =
        some (⟨C ++ Y :: m1.v.drop (p + 1)⟩, first, C.length + 1) := by
      simp only [RangeMap.iter_mut_state, if_neg (show ¬ len = 0 by omega)]
      rw [hfind]
      simp only
      rw [hsplit]
      simp only
      rw [← hfirst, hloop]
      simp only
      rw [split_after_pivot_noop (by rw [hYstop, ← hstop_eq])]
      simp only
      rw [Nat.add_sub_cancel]
    have hnoopa : m1.split_index p (offset + len) = some (m1, false) :=
      split_index_noop hpL (Or.inr hstop_eq)
    have href : m.refIterMutState offset len =
        some (⟨C ++ Y :: m1.v.drop (p + 1)⟩, first, C.length + 1) := by
      simp only [RangeMap.refIterMutState, if_neg (show ¬ len = 0 by omega)]
      rw [hfind]
      simp only
      rw [hsplit]
      simp only
      rw [← hfirst, hfind2]
      simp only
      rw [hnoopa]
      simp only
      rw [hloop]
    exact ⟨hcode.trans href.symm, _, href⟩
  · -- the boundary falls strictly inside the pivot: the reference splits it
    -- first, the code splits it after the scan; the scans run in lockstep
    have hsplitb : m1.split_index p (offset + len) = some (⟨m1.v.take p ++
        [{ m1.v[p] with stop := offset + len },
         { m1.v[p] with start := offset + len }] ++
        m1.v.drop (p + 1)⟩, true) := split_index_split hpL hpstart hstop_gt
    have hm2 : m1.v.take p ++
        [{ m1.v[p] with stop := offset + len },
         { m1.v[p] with start := offset + len }] ++
        m1.v.drop (p + 1) =
        m1.v.take p ++ { m1.v[p] with stop := offset + len } ::
          ({ m1.v[p] with start := offset + len } :: m1.v.drop (p + 1)) := by
      simp [List.append_assoc]
    obtain ⟨C, y, hy, hloopC, hloopR⟩ := mutLoop_lockstep (m1.v.length + 1)
      ((m1.v.take p ++ { m1.v[p] with stop := offset + len } ::
        ({ m1.v[p] with start := offset + len } :: m1.v.drop (p + 1))).length + 1)
      (m1.v.take p) (m1.v.drop (p + 1))
      ({ m1.v[p] with start := offset + len } :: m1.v.drop (p + 1))
      (m1.v[p]) ({ m1.v[p] with stop := offset + len })
      first first 3
      (le_refl _) (by omega) hA rfl rfl hpstart (le_of_lt hstop_gt) (le_refl _)
      (fun _ h3 => absurd h3 (by omega)) (by omega) (by simp; omega)
    rw [← hdecomp] at hloopC
    have hcode : m.iter_mut_state offset len =
        some (⟨C ++ Elem.mk y (offset + len) ((m1.v[p]).data) ::
          Elem.mk (offset + len) ((m1.v[p]).stop) ((m1.v[p]).data) ::
          m1.v.drop (p + 1)⟩, first, C.length + 1) := by
      simp only [RangeMap.iter_mut_state, if_neg (show ¬ len = 0 by omega)]
      rw [hfind]
      simp only
      rw [hsplit]
      simp only
      rw [← hfirst, hloopC]
      simp only
      rw [split_after_pivot hy hstop_gt]
      simp only
      rw [Nat.add_sub_cancel]
    have href : m.refIterMutState offset len =
        some (⟨C ++ Elem.mk y (offset + len) ((m1.v[p]).data) ::
          Elem.mk (offset + len) ((m1.v[p]).stop) ((m1.v[p]).data) ::
          m1.v.drop (p + 1)⟩, first, C.length + 1) := by
      simp only [RangeMap.refIterMutState, if_neg (show ¬ len = 0 by omega)]
      rw [hfind]
      simp only
      rw [hsplit]
      simp only
      rw [← hfirst, hfind2]
      simp only
      rw [hsplitb]
      simp only
      rw [hm2, hloopR]
    exact ⟨hcode.trans href.symm, _, href⟩

theorem two_phase_split_refinement_witness :
    (RangeMap.new 10 (-1 : Int)).Inv 10 ∧ (0 : Nat) < 4 ∧ 3 + 4 ≤ 10 ∧
      ((RangeMap.new 10 (-1 : Int)).iter_mut_state 3 4 =
        (RangeMap.new 10 (-1 : Int)).refIterMutState 3 4 ∧
       ∃ r, (RangeMap.new 10 (-1 : Int)).refIterMutState 3 4 = some r) :=
  ⟨(by decide : chain 0 (RangeMap.new 10 (-1 : Int)).v 10), by decide, by decide,
    two_phase_split_refinement
      (by decide : chain 0 (RangeMap.new 10 (-1 : Int)).v 10)
      (by decide) (by decide)⟩

end RangeMapModel
